import Mathlib

/-!
Shallow embedding of the Minesweeper AI engine (`minesweeper.py`):
the `Sentence` class, the `MinesweeperAI` agent state with its operations
`mark_mine`, `mark_safe`, `add_knowledge`, `update_knowledge`,
`make_safe_move`, `make_random_move`, and the `Minesweeper` board's
`nearby_mines`.

Python integers are modelled by `ℤ`, cells by pairs of integers, Python
sets of cells by `Finset (ℤ × ℤ)`, and the knowledge base (a Python list
of `Sentence` objects) by `List Sentence`.  Sentence equality in Python
is structural on (cells, count), which coincides with equality of the
Lean structure.  The recursive `update_knowledge` is modelled with
explicit fuel, returning `none` when the fuel is exhausted; the Python
call terminates exactly when some finite fuel suffices.
-/

abbrev Cell : Type := ℤ × ℤ

/-- `range(a, b)` over the integers, as a list (ascending, `b` exclusive). -/
def rangeList (a b : ℤ) : List ℤ :=
  (List.range (b - a).toNat).map (fun k => a + (k : ℤ))

/-- In-place update of the `i`-th element of a list (no-op when out of range),
used to model Python's mutation of one sentence object inside the list. -/
def listModify {α : Type} (f : α → α) : ℕ → List α → List α
  | _, [] => []
  | 0, a :: as => f a :: as
  | n + 1, a :: as => a :: listModify f n as

/-- A total order on cells (row-major), used only to list the elements of
a cell set in a canonical order when modelling iteration over a Python set. -/
def cellLe (a b : Cell) : Prop :=
  a.1 < b.1 ∨ (a.1 = b.1 ∧ a.2 ≤ b.2)

instance : DecidableRel cellLe := by
  unfold cellLe; infer_instance

instance : IsTrans Cell cellLe := by
  constructor; intro a b c hab hbc
  rcases hab with h | ⟨h1, h2⟩ <;> rcases hbc with h' | ⟨h1', h2'⟩ <;>
    unfold cellLe <;> omega

instance : IsAntisymm Cell cellLe := by
  constructor; intro a b hab hba
  have h1 : a.1 = b.1 := by rcases hab with h | h <;> rcases hba with h' | h' <;> omega
  have h2 : a.2 = b.2 := by rcases hab with h | h <;> rcases hba with h' | h' <;> omega
  exact Prod.ext h1 h2

instance : IsTotal Cell cellLe := by
  constructor; intro a b; unfold cellLe; omega

/-- Canonical listing of a finite set of cells (insertion sort keeps the
definition reducible by the kernel, unlike merge sort). -/
def cellList (t : Finset Cell) : List Cell :=
  Quotient.lift (fun l => List.insertionSort cellLe l)
    (fun l1 l2 h =>
      List.eq_of_perm_of_sorted
        (((List.perm_insertionSort cellLe l1).trans h).trans
          (List.perm_insertionSort cellLe l2).symm)
        (List.sorted_insertionSort cellLe l1) (List.sorted_insertionSort cellLe l2))
    t.val

/-- The `Sentence` class: a set of board cells and a count of how many of
those cells are mines.  `__eq__` compares `(cells, count)` structurally. -/
structure Sentence where
  cells : Finset Cell
  count : ℤ
deriving DecidableEq

/-- `Sentence.known_mines`: the cell set when `len(cells) == count != 0`, else `None`. -/
def Sentence.known_mines (s : Sentence) : Option (Finset Cell) :=
  if (s.cells.card : ℤ) = s.count ∧ s.count ≠ 0 then some s.cells else none

/-- `Sentence.known_safes`: the cell set when `count == 0` and `len(cells) != 0`, else `None`. -/
def Sentence.known_safes (s : Sentence) : Option (Finset Cell) :=
  if s.count = 0 ∧ s.cells ≠ ∅ then some s.cells else none

/-- `Sentence.mark_mine`: if the cell is in the sentence, remove it and
decrement the count by 1; otherwise a no-op. -/
def Sentence.mark_mine (s : Sentence) (c : Cell) : Sentence :=
  if c ∈ s.cells then ⟨s.cells.erase c, s.count - 1⟩ else s

/-- `Sentence.mark_safe`: if the cell is in the sentence, remove it
(count unchanged); otherwise a no-op. -/
def Sentence.mark_safe (s : Sentence) (c : Cell) : Sentence :=
  if c ∈ s.cells then ⟨s.cells.erase c, s.count⟩ else s

/-- The `Minesweeper` board: height, width and the set of mined cells
(the `board` matrix of booleans is represented by the mine set). -/
structure Board where
  height : ℤ
  width : ℤ
  mines : Finset Cell

/-- `Minesweeper.nearby_mines`: count of mined in-bounds cells within one
row and column of `cell`, the cell itself excluded.  Bounds use
`0 <= i < height` for the row and `0 <= j < width` for the column. -/
def Minesweeper.nearby_mines (b : Board) (cell : Cell) : ℤ :=
  (rangeList (cell.1 - 1) (cell.1 + 2)).foldl (fun cnt i =>
    (rangeList (cell.2 - 1) (cell.2 + 2)).foldl (fun cnt j =>
      if (i, j) = cell then cnt
      else if 0 ≤ i ∧ i < b.height ∧ 0 ≤ j ∧ j < b.width ∧ (i, j) ∈ b.mines
      then cnt + 1 else cnt) cnt) 0

/-- The `MinesweeperAI` agent state: board dimensions, the cells already
played, the cells known to be mines / safe, and the knowledge base. -/
structure AIState where
  height : ℤ
  width : ℤ
  moves_made : Finset Cell
  mines : Finset Cell
  safes : Finset Cell
  knowledge : List Sentence
deriving DecidableEq

/-- `MinesweeperAI.__init__`: fresh agent for the given dimensions. -/
def initAI (height width : ℤ) : AIState :=
  ⟨height, width, ∅, ∅, ∅, []⟩

namespace MinesweeperAI

/-- `MinesweeperAI.mark_mine`: add the cell to `self.mines` and apply
`Sentence.mark_mine` to every sentence in the knowledge base. -/
def mark_mine (s : AIState) (c : Cell) : AIState :=
  { s with mines := insert c s.mines,
           knowledge := s.knowledge.map (fun t => t.mark_mine c) }

/-- `MinesweeperAI.mark_safe`: add the cell to `self.safes` and apply
`Sentence.mark_safe` to every sentence in the knowledge base. -/
def mark_safe (s : AIState) (c : Cell) : AIState :=
  { s with safes := insert c s.safes,
           knowledge := s.knowledge.map (fun t => t.mark_safe c) }

end MinesweeperAI

/-- One global `self.mark_mine(cell)` together with the redundant
`sentence.mark_mine(cell)` applied to the sentence at index `i`
(the Python loop body inside `update_knowledge`, step 4). -/
def aiSentenceMarkMine (s : AIState) (i : ℕ) (c : Cell) : AIState :=
  let s1 := MinesweeperAI.mark_mine s c
  { s1 with knowledge := listModify (fun t => t.mark_mine c) i s1.knowledge }

/-- One global `self.mark_safe(cell)` together with the redundant
`sentence.mark_safe(cell)` applied to the sentence at index `i`. -/
def aiSentenceMarkSafe (s : AIState) (i : ℕ) (c : Cell) : AIState :=
  let s1 := MinesweeperAI.mark_safe s c
  { s1 with knowledge := listModify (fun t => t.mark_safe c) i s1.knowledge }

/-- Mark every cell of the (copied) `known_mines` result, in order. -/
def markCellsMineAt (s : AIState) (i : ℕ) (cs : List Cell) : AIState :=
  cs.foldl (fun st c => aiSentenceMarkMine st i c) s

/-- Mark every cell of the (copied) `known_safes` result, in order. -/
def markCellsSafeAt (s : AIState) (i : ℕ) (cs : List Cell) : AIState :=
  cs.foldl (fun st c => aiSentenceMarkSafe st i c) s

/-- Processing of the sentence at index `i` in step 4 of
`update_knowledge`: first the `known_safes` branch (checked on the
current sentence), then the `known_mines` branch (re-checked on the
possibly mutated sentence); each firing branch sets the changed flag.
Iterating over an unordered Python set is modelled by `cellList`;
the marking operations commute, so the order does not affect the result. -/
def step4At (acc : AIState × Bool) (i : ℕ) : AIState × Bool :=
  match (acc.1).knowledge.get? i with
  | none => acc
  | some sent =>
    let acc1 : AIState × Bool :=
      match sent.known_safes with
      | some ks => (markCellsSafeAt acc.1 i (cellList ks), true)
      | none => acc
    match (acc1.1).knowledge.get? i with
    | none => acc1
    | some sent1 =>
      match sent1.known_mines with
      | some km => (markCellsMineAt acc1.1 i (cellList km), true)
      | none => acc1

/-- Step 4 of `update_knowledge`: the `for sentence in self.knowledge`
loop (the list keeps its length during this phase, so the iteration is
over the initial range of indices, reading the current element each time). -/
def step4 (s : AIState) : AIState × Bool :=
  (List.range s.knowledge.length).foldl step4At (s, false)

/-- `self.knowledge.remove(sentence)`: remove the first structurally
equal element. -/
def removeFirst (t : Sentence) : List Sentence → List Sentence
  | [] => []
  | a :: as => if a = t then as else a :: removeFirst t as

/-- The empty-sentence cleanup of `update_knowledge`: scan a copy of the
knowledge base, remove the first sentence whose cell set is empty, then
`break` (so at most one sentence is removed per pass). -/
def removalPhase (ℓ : List Sentence) : List Sentence :=
  match ℓ.find? (fun t => decide (t.cells = ∅)) with
  | some t => removeFirst t ℓ
  | none => ℓ

/-- The sentence derived by subset resolution:
`Sentence(sentence2.cells - sentence1.cells, sentence2.count - sentence1.count)`. -/
def deriveSentence (t1 t2 : Sentence) : Sentence :=
  ⟨t2.cells \ t1.cells, t2.count - t1.count⟩

/-- Inner body of step 5: for the ordered pair `(s1, s2)`, when the two
sentences are structurally distinct and `s1.cells` is a strict subset of
`s2.cells`, append the derived sentence unless a structurally equal one
is already in the (current, growing) knowledge base. -/
def step5Body (s1 : Sentence) (acc : List Sentence × Bool) (s2 : Sentence) :
    List Sentence × Bool :=
  if s1 ≠ s2 ∧ s1.cells ⊂ s2.cells then
    (if deriveSentence s1 s2 ∈ acc.1 then acc else (acc.1 ++ [deriveSentence s1 s2], true))
  else acc

/-- Step 5 of `update_knowledge`: subset resolution over all ordered
pairs from a fixed copy of the knowledge base, appending to the live
list; `ch` is the changed flag carried over from step 4. -/
def step5 (ℓ : List Sentence) (ch : Bool) : List Sentence × Bool :=
  ℓ.foldl (fun acc s1 => ℓ.foldl (step5Body s1) acc) (ℓ, ch)

/-- One full pass of `update_knowledge`: fact marking (step 4), removal
of (at most one) empty sentence, subset resolution (step 5); returns the
new state and the `knowledge_changed` flag. -/
def updatePass (s : AIState) : AIState × Bool :=
  let a := step4 s
  let lr := removalPhase (a.1).knowledge
  let b := step5 lr a.2
  ({ a.1 with knowledge := b.1 }, b.2)

/-- `MinesweeperAI.update_knowledge` with explicit fuel: run passes until
one reports no change; `none` when the fuel runs out before that.  The
Python recursion terminates on a given state exactly when this returns
`some` for some fuel. -/
def updateKnowledge : ℕ → AIState → Option AIState
  | 0, _ => none
  | n + 1, s =>
    let a := updatePass s
    if a.2 then updateKnowledge n a.1 else some a.1

/-- The neighbor scan of `add_knowledge` (lines 212-223 of the source):
`for i in range(max(0, cell[0] - 1), min(self.width, cell[0] + 2))` and
`for j in range(max(0, cell[1] - 1), min(self.height, cell[1] + 2))`;
skip the cell itself; a known mine decrements the running count; a cell
that is neither a known mine nor a known safe joins the new sentence.
Note the source clips the row index `i` by `width` and the column index
`j` by `height`. -/
def neighborScan (s : AIState) (cell : Cell) (count : ℤ) : Finset Cell × ℤ :=
  (rangeList (max 0 (cell.1 - 1)) (min s.width (cell.1 + 2))).foldl (fun acc i =>
    (rangeList (max 0 (cell.2 - 1)) (min s.height (cell.2 + 2))).foldl (fun acc j =>
      if (i, j) = cell then acc
      else if (i, j) ∈ s.mines then (acc.1, acc.2 - 1)
      else if (i, j) ∉ s.safes then (insert (i, j) acc.1, acc.2)
      else acc) acc) (∅, count)

/-- The state of `add_knowledge` just after appending the new sentence
(steps 1-3): record the move, mark the cell safe, build the neighbor
sentence and append it. -/
def addKnowledgeAppend (s : AIState) (cell : Cell) (count : ℤ) : AIState :=
  let s1 := { s with moves_made := insert cell s.moves_made }
  let s2 := MinesweeperAI.mark_safe s1 cell
  let nb := neighborScan s2 cell count
  { s2 with knowledge := s2.knowledge ++ [⟨nb.1, nb.2⟩] }

/-- `MinesweeperAI.add_knowledge`: steps 1-3 then the fixed-point
propagation, with explicit fuel for the latter. -/
def addKnowledge (fuel : ℕ) (s : AIState) (cell : Cell) (count : ℤ) : Option AIState :=
  updateKnowledge fuel (addKnowledgeAppend s cell count)

/-- The scan order of `make_safe_move` and `make_random_move`:
`for i in range(self.width): for j in range(self.height): ... (i, j)`. -/
def scanCells (s : AIState) : List Cell :=
  (rangeList 0 s.width).foldr (fun i acc =>
    ((rangeList 0 s.height).map (fun j => ((i : ℤ), (j : ℤ)))) ++ acc) []

/-- `MinesweeperAI.make_safe_move`: first scanned cell that is not an
existing move and is known safe; `None` when the scan finds none. -/
def makeSafeMove (s : AIState) : Option Cell :=
  (scanCells s).find? (fun c => decide (c ∉ s.moves_made ∧ c ∈ s.safes))

/-- The candidate pool of `make_random_move`: scanned cells that are not
existing moves and not known mines (`random.choice` then picks a member
of this list; the pool itself is deterministic). -/
def unknownCells (s : AIState) : List Cell :=
  (scanCells s).filter (fun c => decide (c ∉ s.moves_made ∧ c ∉ s.mines))

/-- A cell of the actual board: row within height, column within width. -/
def isBoardCell (s : AIState) (c : Cell) : Prop :=
  0 ≤ c.1 ∧ c.1 < s.height ∧ 0 ≤ c.2 ∧ c.2 < s.width

instance (s : AIState) (c : Cell) : Decidable (isBoardCell s c) := by
  unfold isBoardCell; infer_instance

/-!
Reachability: states obtainable from a fresh `MinesweeperAI` through its
public operations.  `make_safe_move` and `make_random_move` do not
assign to any attribute (they only return a cell), so they contribute no
transition.  An `add_knowledge` transition exists exactly when its
internal propagation terminates, i.e. when some finite fuel suffices.
-/

inductive Reachable : AIState → Prop where
  | init (height width : ℤ) : Reachable (initAI height width)
  | mark_mine {s : AIState} (c : Cell) : Reachable s →
      Reachable (MinesweeperAI.mark_mine s c)
  | mark_safe {s : AIState} (c : Cell) : Reachable s →
      Reachable (MinesweeperAI.mark_safe s c)
  | add_knowledge {s s' : AIState} (fuel : ℕ) (cell : Cell) (count : ℤ) :
      Reachable s → addKnowledge fuel s cell count = some s' → Reachable s'

/-- Marking (0,0) first as a mine and then as safe, both public operations. -/
def c2BadState : AIState :=
  MinesweeperAI.mark_safe (MinesweeperAI.mark_mine (initAI 3 3) (0, 0)) (0, 0)

/-- Claim C2 is false as stated: the state reached from a fresh 3x3 agent
by the public calls `mark_mine((0,0))` then `mark_safe((0,0))` has the
cell (0,0) in both `safes` and `mines`, so the two sets are not disjoint. -/
theorem c2_mark_mine_then_safe_not_disjoint :
    Reachable c2BadState ∧
      ((0 : ℤ), (0 : ℤ)) ∈ c2BadState.safes ∧ ((0 : ℤ), (0 : ℤ)) ∈ c2BadState.mines :=
  ⟨Reachable.mark_safe _ (Reachable.mark_mine _ (Reachable.init 3 3)), by decide, by decide⟩

/-- Fallback state for reading the result of a terminating run. -/
def noAI : AIState := initAI 0 0

/-- The state produced by `add_knowledge((0,1), 1)` on a fresh agent with
`height = 1`, `width = 3`. -/
def sC1 : AIState := (addKnowledge 1 (initAI 1 3) (0, 1) 1).getD noAI

/-- Claim C1 fails in the code (bounds swap): on a fresh 1x3 agent,
`add_knowledge((0,1), 1)` appends the sentence `{(0,0), (1,0)} = 1`.
The loop bounds of the neighbor scan clip the row index by `width` and
the column index by `height`, so the cell set contains the out-of-bounds
cell (1,0) (row 1 is not below height 1) and omits the in-bounds
8-neighbor (0,2), contradicting the claimed in-bounds neighbor set
`{(0,0), (0,2)}`. -/
theorem c1_neighbor_bounds_swapped :
    (addKnowledge 1 (initAI 1 3) (0, 1) 1).isSome = true ∧
    sC1.knowledge.map Sentence.cells = [{(0, 0), (1, 0)}] ∧
    sC1.knowledge.map Sentence.count = [1] ∧
    ¬ isBoardCell (initAI 1 3) (1, 0) ∧
    ((1 : ℤ), (0 : ℤ)) ∈ ({(0, 0), (1, 0)} : Finset Cell) ∧
    isBoardCell (initAI 1 3) (0, 2) ∧
    ((0 : ℤ), (2 : ℤ)) ∉ ({(0, 0), (1, 0)} : Finset Cell) := by
  exact ⟨by decide, by decide, by decide, by decide, by decide, by decide, by decide⟩

/-- A knowledge base in which three sentences become empty in the same
propagation pass. -/
def c5State : AIState :=
  { initAI 3 3 with knowledge := [⟨{(0, 0)}, 0⟩, ⟨{(0, 1)}, 0⟩, ⟨{(0, 2)}, 0⟩] }

/-- The state in which the propagation from `c5State` terminates. -/
def sC5 : AIState := (updateKnowledge 2 c5State).getD noAI

/-- Claim C5 fails in the code (the removal loop `break`s after one
removal): starting from three sentences `{c} = 0`, propagation terminates
(fuel 2 suffices) but returns with the empty sentence `∅ = 0` still in
the knowledge base, because each pass removes at most one empty sentence
and the final (unchanged) pass still leaves one behind. -/
theorem c5_empty_sentence_survives :
    (updateKnowledge 2 c5State).isSome = true ∧
    sC5.knowledge.map Sentence.cells = [∅] ∧
    sC5.knowledge.map Sentence.count = [0] ∧
    ∃ t ∈ sC5.knowledge, t.cells = ∅ := by
  refine ⟨by decide, by decide, by decide, ⟨∅, 0⟩, by decide, rfl⟩

/-- The reachable state with `safes = {(2,0)}` on a 3x1 board. -/
def c6State : AIState := MinesweeperAI.mark_safe (initAI 3 1) (2, 0)

/-- Claim C6 fails in the code (transposed scan): on a 3x1 board whose
only knowledge is that the board cell (2,0) is safe and unplayed,
`make_safe_move` returns `None`, although a board cell in `safes` and
outside `moves_made` exists — the scan enumerates pairs with first
component below `width` and second below `height`, i.e. the transposed
board, and never visits (2,0). -/
theorem c6_safe_move_scan_transposed :
    makeSafeMove c6State = none ∧
    ((2 : ℤ), (0 : ℤ)) ∈ c6State.safes ∧
    ((2 : ℤ), (0 : ℤ)) ∉ c6State.moves_made ∧
    isBoardCell c6State (2, 0) := by
  exact ⟨by decide, by decide, by decide, by decide⟩

/-- Claim C7 fails in the code (transposed pool): on a fresh 3x1 agent
the candidate pool of `make_random_move` is `[(0,0), (0,1), (0,2)]`.
It contains (0,1), which is not a board cell (column 1 is not below
width 1), and misses the board cell (1,0), which is neither an existing
move nor a known mine — so the pool is not the set of board cells
outside `moves_made` and `mines`. -/
theorem c7_random_pool_transposed :
    unknownCells (initAI 3 1) = [(0, 0), (0, 1), (0, 2)] ∧
    ((0 : ℤ), (1 : ℤ)) ∈ unknownCells (initAI 3 1) ∧
    ¬ isBoardCell (initAI 3 1) (0, 1) ∧
    isBoardCell (initAI 3 1) (1, 0) ∧
    ((1 : ℤ), (0 : ℤ)) ∉ unknownCells (initAI 3 1) ∧
    ((1 : ℤ), (0 : ℤ)) ∉ (initAI 3 1).moves_made ∧
    ((1 : ℤ), (0 : ℤ)) ∉ (initAI 3 1).mines := by
  exact ⟨by decide, by decide, by decide, by decide, by decide, by decide, by decide⟩

/-- Claim C8: `known_mines` returns the full cell set exactly when the
count equals the number of cells and is non-zero, otherwise `None` (in
particular the empty sentence with count 0 yields no mine conclusion);
`known_safes` returns the full cell set exactly when the count is 0 and
the cell set is non-empty, otherwise `None`. -/
theorem c8_known_conclusions (s : Sentence) (t : Finset Cell) :
    (s.known_mines = some t ↔ (s.cells.card : ℤ) = s.count ∧ s.count ≠ 0 ∧ t = s.cells) ∧
    (s.known_safes = some t ↔ s.count = 0 ∧ s.cells ≠ ∅ ∧ t = s.cells) ∧
    (s.known_mines = none ↔ ¬ ((s.cells.card : ℤ) = s.count ∧ s.count ≠ 0)) ∧
    (s.known_safes = none ↔ ¬ (s.count = 0 ∧ s.cells ≠ ∅)) ∧
    Sentence.known_mines ⟨∅, 0⟩ = none := by
  refine ⟨?_, ?_, ?_, ?_, by decide⟩
  · simp only [Sentence.known_mines]
    split
    · rename_i h
      exact ⟨fun ht => ⟨h.1, h.2, (Option.some.inj ht).symm⟩,
             fun hr => by rw [hr.2.2]⟩
    · rename_i h
      exact iff_of_false (fun ht => Option.noConfusion ht) (fun hr => h ⟨hr.1, hr.2.1⟩)
  · simp only [Sentence.known_safes]
    split
    · rename_i h
      exact ⟨fun ht => ⟨h.1, h.2, (Option.some.inj ht).symm⟩,
             fun hr => by rw [hr.2.2]⟩
    · rename_i h
      exact iff_of_false (fun ht => Option.noConfusion ht) (fun hr => h ⟨hr.1, hr.2.1⟩)
  · simp only [Sentence.known_mines]
    split
    · rename_i h
      exact iff_of_false (fun ht => Option.noConfusion ht) (fun hn => hn h)
    · rename_i h
      exact iff_of_true rfl h
  · simp only [Sentence.known_safes]
    split
    · rename_i h
      exact iff_of_false (fun ht => Option.noConfusion ht) (fun hn => hn h)
    · rename_i h
      exact iff_of_true rfl h

/-- Witness for C8 at concrete sentences. -/
theorem c8_known_conclusions_witness :
    Sentence.known_mines ⟨{((0 : ℤ), (0 : ℤ))}, 1⟩ = some {((0 : ℤ), (0 : ℤ))} ∧
    Sentence.known_safes ⟨{((0 : ℤ), (1 : ℤ))}, 0⟩ = some {((0 : ℤ), (1 : ℤ))} :=
  ⟨(c8_known_conclusions ⟨{(0, 0)}, 1⟩ {(0, 0)}).1.mpr (by decide),
   (c8_known_conclusions ⟨{(0, 1)}, 0⟩ {(0, 1)}).2.1.mpr (by decide)⟩

/-- The 1x3 board with a single mine at (0,2). -/
def board9 : Board := ⟨1, 3, {(0, 2)}⟩

/-- The agent state after the first truthful call `add_knowledge((0,1), 1)`
on a fresh 1x3 agent. -/
def s9A : AIState := (addKnowledge 1 (initAI 1 3) (0, 1) 1).getD noAI

/-- The state reached inside the second call `add_knowledge((0,0), 0)`
right after the fact-marking phase of the first propagation pass. -/
def s9mid : AIState := (step4 (addKnowledgeAppend s9A (0, 0) 0)).1

/-- Claim C9 fails in the code: on the 1x3 board with one mine at (0,2),
both calls supply the true neighbor mine counts (`nearby_mines` returns
1 for (0,1) and 0 for (0,0), and both revealed cells are safe), yet
during the second call the fact-marking phase applies
`Sentence.mark_mine((1,0))` to the sentence `{(1,0)} = 0` and leaves the
sentence `∅ = -1` in the knowledge base: its count -1 violates
`0 ≤ count ≤ |cells|`.  (The spurious deduction stems from the
out-of-bounds neighbor (1,0) introduced by the bounds swap of C1.) -/
theorem c9_negative_count_from_true_counts :
    Minesweeper.nearby_mines board9 (0, 1) = 1 ∧
    Minesweeper.nearby_mines board9 (0, 0) = 0 ∧
    (0, 1) ∉ board9.mines ∧ (0, 0) ∉ board9.mines ∧
    (addKnowledge 1 (initAI 1 3) (0, 1) 1).isSome = true ∧
    s9mid.knowledge.map Sentence.cells = [∅, ∅] ∧
    s9mid.knowledge.map Sentence.count = [0, -1] ∧
    ∃ t ∈ s9mid.knowledge, t.count < 0 := by
  refine ⟨by decide, by decide, by decide, by decide, by decide, by decide, by decide, ?_⟩
  exact ⟨⟨∅, -1⟩, by decide, by decide⟩

/-!
Structural lemmas about subset resolution (step 5 of `update_knowledge`).
-/

/-- A sentence derivable by one subset-resolution step from members of `ℓ`. -/
def Derivable (ℓ : List Sentence) (e : Sentence) : Prop :=
  ∃ t1 ∈ ℓ, ∃ t2 ∈ ℓ, t1 ≠ t2 ∧ t1.cells ⊂ t2.cells ∧ e = deriveSentence t1 t2

/-- Fold preservation of a predicate, with membership of the scanned element. -/
theorem foldlPreserve {α β : Type} (P : α → Prop) (l : List β) (f : α → β → α)
    (hstep : ∀ a b, b ∈ l → P a → P (f a b)) :
    ∀ a, P a → P (l.foldl f a) := by
  induction l with
  | nil => exact fun a ha => ha
  | cons b bs ih =>
    intro a ha
    exact ih (fun x y hy hx => hstep x y (List.mem_cons_of_mem _ hy) hx) _
      (hstep a b (List.mem_cons_self _ _) ha)

/-- One step-5 body application only appends to the accumulated list. -/
theorem step5Body_append (s1 : Sentence) (acc : List Sentence × Bool) (s2 : Sentence) :
    ∃ e, (step5Body s1 acc s2).1 = acc.1 ++ e := by
  unfold step5Body
  split
  · split
    · exact ⟨[], (List.append_nil _).symm⟩
    · exact ⟨[deriveSentence s1 s2], rfl⟩
  · exact ⟨[], (List.append_nil _).symm⟩

/-- The inner fold of step 5 only appends to the accumulated list. -/
theorem step5_inner_append (s1 : Sentence) (l2 : List Sentence) (acc : List Sentence × Bool) :
    ∃ e, (l2.foldl (step5Body s1) acc).1 = acc.1 ++ e := by
  induction l2 generalizing acc with
  | nil => exact ⟨[], (List.append_nil _).symm⟩
  | cons b bs ih =>
    obtain ⟨e1, he1⟩ := step5Body_append s1 acc b
    obtain ⟨e2, he2⟩ := ih (step5Body s1 acc b)
    exact ⟨e1 ++ e2, by rw [List.foldl_cons, he2, he1, List.append_assoc]⟩

/-- The outer fold of step 5 only appends to the accumulated list. -/
theorem step5_outer_append (ℓ : List Sentence) (l1 : List Sentence)
    (acc : List Sentence × Bool) :
    ∃ e, (l1.foldl (fun a s1 => ℓ.foldl (step5Body s1) a) acc).1 = acc.1 ++ e := by
  induction l1 generalizing acc with
  | nil => exact ⟨[], (List.append_nil _).symm⟩
  | cons b bs ih =>
    obtain ⟨e1, he1⟩ := step5_inner_append b ℓ acc
    obtain ⟨e2, he2⟩ := ih (ℓ.foldl (step5Body b) acc)
    exact ⟨e1 ++ e2, by rw [List.foldl_cons, he2, he1, List.append_assoc]⟩

/-- After the inner fold has scanned `t2`, the sentence derived from the
pair `(s1, t2)` is in the accumulated list. -/
theorem step5_inner_hits (s1 t2 : Sentence) (l2 : List Sentence)
    (acc : List Sentence × Bool) (hmem : t2 ∈ l2) (hne : s1 ≠ t2)
    (hsub : s1.cells ⊂ t2.cells) :
    deriveSentence s1 t2 ∈ (l2.foldl (step5Body s1) acc).1 := by
  induction l2 generalizing acc with
  | nil => cases hmem
  | cons b bs ih =>
    rcases List.mem_cons.mp hmem with rfl | hmem'
    · have hd : deriveSentence s1 t2 ∈ (step5Body s1 acc t2).1 := by
        unfold step5Body
        rw [if_pos ⟨hne, hsub⟩]
        split
        · rename_i hin; exact hin
        · exact List.mem_append_right _ (List.mem_singleton_self _)
      obtain ⟨e, he⟩ := step5_inner_append s1 bs (step5Body s1 acc t2)
      rw [List.foldl_cons, he]
      exact List.mem_append_left _ hd
    · exact ih (step5Body s1 acc b) hmem'

/-- Every valid ordered pair is processed by step 5: the derived sentence
is present in the resulting knowledge base. -/
theorem step5_hits (ℓ : List Sentence) (ch : Bool) (t1 t2 : Sentence)
    (h1 : t1 ∈ ℓ) (h2 : t2 ∈ ℓ) (hne : t1 ≠ t2) (hsub : t1.cells ⊂ t2.cells) :
    deriveSentence t1 t2 ∈ (step5 ℓ ch).1 := by
  unfold step5
  have key : ∀ (l1 : List Sentence) (acc : List Sentence × Bool), t1 ∈ l1 →
      deriveSentence t1 t2 ∈ (l1.foldl (fun a s1 => ℓ.foldl (step5Body s1) a) acc).1 := by
    intro l1
    induction l1 with
    | nil => intro acc h; cases h
    | cons b bs ih =>
      intro acc hmem
      rcases List.mem_cons.mp hmem with rfl | hmem'
      · have hd := step5_inner_hits t1 t2 ℓ acc h2 hne hsub
        obtain ⟨e, he⟩ := step5_outer_append ℓ bs (ℓ.foldl (step5Body t1) acc)
        rw [List.foldl_cons, he]
        exact List.mem_append_left _ hd
      · exact ih _ hmem'
  exact key ℓ (ℓ, ch) h1

/-- Structure of the step-5 result: the input list followed by a
duplicate-free block of newly derived sentences, none of which was
already present; the changed flag is raised exactly when the block is
non-empty (or was already raised by step 4). -/
theorem step5_spec (ℓ : List Sentence) (ch : Bool) :
    ∃ ext, (step5 ℓ ch).1 = ℓ ++ ext ∧ ext.Nodup ∧
      (∀ e ∈ ext, e ∉ ℓ ∧ Derivable ℓ e) ∧
      (step5 ℓ ch).2 = (ch || !ext.isEmpty) := by
  unfold step5
  have body : ∀ (s1 : Sentence), s1 ∈ ℓ → ∀ (acc : List Sentence × Bool) (s2 : Sentence),
      s2 ∈ ℓ →
      (∃ ext, acc.1 = ℓ ++ ext ∧ ext.Nodup ∧ (∀ e ∈ ext, e ∉ ℓ ∧ Derivable ℓ e) ∧
        acc.2 = (ch || !ext.isEmpty)) →
      (∃ ext, (step5Body s1 acc s2).1 = ℓ ++ ext ∧ ext.Nodup ∧
        (∀ e ∈ ext, e ∉ ℓ ∧ Derivable ℓ e) ∧
        (step5Body s1 acc s2).2 = (ch || !ext.isEmpty)) := by
    intro s1 hs1 acc s2 hs2 ⟨ext, hacc, hnd, hprop, hflag⟩
    unfold step5Body
    split
    · rename_i hcond
      split
      · exact ⟨ext, hacc, hnd, hprop, hflag⟩
      · rename_i hnotin
        refine ⟨ext ++ [deriveSentence s1 s2], by rw [hacc, List.append_assoc], ?_, ?_, ?_⟩
        · refine List.Nodup.append hnd (List.nodup_singleton _) ?_
          intro a ha hb
          rw [List.mem_singleton] at hb
          subst hb
          exact hnotin (hacc ▸ List.mem_append_right _ ha)
        · intro e he
          rcases List.mem_append.mp he with he' | he'
          · exact hprop e he'
          · rw [List.mem_singleton] at he'
            subst he'
            refine ⟨fun hin => hnotin (hacc ▸ List.mem_append_left _ hin),
              s1, hs1, s2, hs2, hcond.1, hcond.2, rfl⟩
        · simp
    · exact ⟨ext, hacc, hnd, hprop, hflag⟩
  have inner : ∀ (s1 : Sentence), s1 ∈ ℓ → ∀ (acc : List Sentence × Bool),
      (∃ ext, acc.1 = ℓ ++ ext ∧ ext.Nodup ∧ (∀ e ∈ ext, e ∉ ℓ ∧ Derivable ℓ e) ∧
        acc.2 = (ch || !ext.isEmpty)) →
      (∃ ext, (ℓ.foldl (step5Body s1) acc).1 = ℓ ++ ext ∧ ext.Nodup ∧
        (∀ e ∈ ext, e ∉ ℓ ∧ Derivable ℓ e) ∧
        (ℓ.foldl (step5Body s1) acc).2 = (ch || !ext.isEmpty)) := by
    intro s1 hs1 acc hacc
    exact foldlPreserve _ ℓ _ (fun a b hb ha => body s1 hs1 a b hb ha) acc hacc
  have outer := foldlPreserve
    (fun acc : List Sentence × Bool =>
      ∃ ext, acc.1 = ℓ ++ ext ∧ ext.Nodup ∧ (∀ e ∈ ext, e ∉ ℓ ∧ Derivable ℓ e) ∧
        acc.2 = (ch || !ext.isEmpty))
    ℓ (fun a s1 => ℓ.foldl (step5Body s1) a)
    (fun a b hb ha => inner b hb a ha) (ℓ, ch)
    ⟨[], (List.append_nil _).symm, List.nodup_nil, fun e he => absurd he (List.not_mem_nil e),
      by simp⟩
  exact outer

/-- The spec's subset-resolution example: `{A,B} = 1` and `{A,B,C} = 2`
with `A = (0,0)`, `B = (0,1)`, `C = (0,2)` on a 3x3 agent. -/
def c3State : AIState :=
  { initAI 3 3 with knowledge := [⟨{(0, 0), (0, 1)}, 1⟩, ⟨{(0, 0), (0, 1), (0, 2)}, 2⟩] }

/-- The state in which propagation from `c3State` terminates. -/
def sC3 : AIState := (updateKnowledge 3 c3State).getD noAI

/-- Claim C3: for every ordered pair of distinct live sentences whose
cell sets are in strict inclusion, the derived difference sentence is
present after step 5, and the appended block consists exactly of newly
derived sentences with no structural duplicate of anything already
present; in particular from `{A,B} = 1` and `{A,B,C} = 2` the derived
sentence is `{C} = 1` and propagation concludes that C is a mine. -/
theorem c3_subset_resolution :
    (∀ (ℓ : List Sentence) (ch : Bool) (t1 t2 : Sentence),
        t1 ∈ ℓ → t2 ∈ ℓ → t1 ≠ t2 → t1.cells ⊂ t2.cells →
        deriveSentence t1 t2 ∈ (step5 ℓ ch).1) ∧
    (∀ (ℓ : List Sentence) (ch : Bool),
        ∃ ext, (step5 ℓ ch).1 = ℓ ++ ext ∧ ext.Nodup ∧
          (∀ e ∈ ext, e ∉ ℓ ∧ Derivable ℓ e) ∧
          (step5 ℓ ch).2 = (ch || !ext.isEmpty)) ∧
    deriveSentence ⟨{(0, 0), (0, 1)}, 1⟩ ⟨{(0, 0), (0, 1), (0, 2)}, 2⟩ = ⟨{(0, 2)}, 1⟩ ∧
    (updateKnowledge 3 c3State).isSome = true ∧
    ((0 : ℤ), (2 : ℤ)) ∈ sC3.mines := by
  refine ⟨step5_hits, step5_spec, ?_, by decide, by decide⟩
  unfold deriveSentence
  congr 1

/-- Witness for C3's universal part at a concrete pair of sentences. -/
theorem c3_subset_resolution_witness :
    deriveSentence ⟨{((0 : ℤ), (0 : ℤ))}, 0⟩ ⟨{((0 : ℤ), (0 : ℤ)), ((0 : ℤ), (1 : ℤ))}, 1⟩ ∈
      (step5 [⟨{((0 : ℤ), (0 : ℤ))}, 0⟩, ⟨{((0 : ℤ), (0 : ℤ)), ((0 : ℤ), (1 : ℤ))}, 1⟩]
        false).1 :=
  c3_subset_resolution.1 _ false _ _ (by decide) (by decide) (by decide) (by decide)

/-!
The resolved-cells invariant: no live sentence mentions a cell of
`safes` or `mines`.
-/

/-- No sentence of the knowledge base mentions a resolved cell. -/
def noResolved (s : AIState) : Prop :=
  ∀ t ∈ s.knowledge, ∀ c ∈ t.cells, c ∉ s.safes ∧ c ∉ s.mines

/-- The cells of a mine-marked sentence are among the original cells. -/
theorem mark_mine_cells_subset (t : Sentence) (c : Cell) :
    (t.mark_mine c).cells ⊆ t.cells := by
  unfold Sentence.mark_mine
  split
  · exact Finset.erase_subset _ _
  · exact Finset.Subset.refl _

/-- The marked cell is absent from a mine-marked sentence. -/
theorem mark_mine_cells_not_mem (t : Sentence) (c : Cell) :
    c ∉ (t.mark_mine c).cells := by
  unfold Sentence.mark_mine
  split
  · exact Finset.not_mem_erase _ _
  · assumption

/-- The cells of a safe-marked sentence are among the original cells. -/
theorem mark_safe_cells_subset (t : Sentence) (c : Cell) :
    (t.mark_safe c).cells ⊆ t.cells := by
  unfold Sentence.mark_safe
  split
  · exact Finset.erase_subset _ _
  · exact Finset.Subset.refl _

/-- The marked cell is absent from a safe-marked sentence. -/
theorem mark_safe_cells_not_mem (t : Sentence) (c : Cell) :
    c ∉ (t.mark_safe c).cells := by
  unfold Sentence.mark_safe
  split
  · exact Finset.not_mem_erase _ _
  · assumption

/-- Members of `listModify g i l` are members of `l` or images under `g`
of members of `l`. -/
theorem listModify_mem {α : Type} (g : α → α) (l : List α) :
    ∀ (i : ℕ) (x : α), x ∈ listModify g i l → x ∈ l ∨ ∃ y ∈ l, x = g y := by
  induction l with
  | nil => intro i x hx; cases i <;> exact absurd hx (List.not_mem_nil x)
  | cons a as ih =>
    intro i x hx
    cases i with
    | zero =>
      rcases List.mem_cons.mp hx with rfl | hx'
      · exact Or.inr ⟨a, List.mem_cons_self _ _, rfl⟩
      · exact Or.inl (List.mem_cons_of_mem _ hx')
    | succ n =>
      rcases List.mem_cons.mp hx with rfl | hx'
      · exact Or.inl (List.mem_cons_self _ _)
      · rcases ih n x hx' with h | ⟨y, hy, hxy⟩
        · exact Or.inl (List.mem_cons_of_mem _ h)
        · exact Or.inr ⟨y, List.mem_cons_of_mem _ hy, hxy⟩

/-- `MinesweeperAI.mark_mine` preserves the resolved-cells invariant. -/
theorem noResolved_mark_mine (s : AIState) (c : Cell) (h : noResolved s) :
    noResolved (MinesweeperAI.mark_mine s c) := by
  intro t' ht' d hd
  unfold MinesweeperAI.mark_mine at ht'
  simp only [List.mem_map] at ht'
  obtain ⟨t, ht, rfl⟩ := ht'
  have hdt : d ∈ t.cells := mark_mine_cells_subset t c hd
  have hdc : d ≠ c := fun hdc => mark_mine_cells_not_mem t c (hdc ▸ hd)
  refine ⟨(h t ht d hdt).1, ?_⟩
  simp only [MinesweeperAI.mark_mine, Finset.mem_insert]
  push_neg
  exact ⟨hdc, (h t ht d hdt).2⟩

/-- `MinesweeperAI.mark_safe` preserves the resolved-cells invariant. -/
theorem noResolved_mark_safe (s : AIState) (c : Cell) (h : noResolved s) :
    noResolved (MinesweeperAI.mark_safe s c) := by
  intro t' ht' d hd
  unfold MinesweeperAI.mark_safe at ht'
  simp only [List.mem_map] at ht'
  obtain ⟨t, ht, rfl⟩ := ht'
  have hdt : d ∈ t.cells := mark_safe_cells_subset t c hd
  have hdc : d ≠ c := fun hdc => mark_safe_cells_not_mem t c (hdc ▸ hd)
  refine ⟨?_, (h t ht d hdt).2⟩
  simp only [MinesweeperAI.mark_safe, Finset.mem_insert]
  push_neg
  exact ⟨hdc, (h t ht d hdt).1⟩

/-- The combined global-plus-local mine marking preserves the invariant. -/
theorem noResolved_aiSentenceMarkMine (s : AIState) (i : ℕ) (c : Cell)
    (h : noResolved s) : noResolved (aiSentenceMarkMine s i c) := by
  have h1 := noResolved_mark_mine s c h
  intro t' ht' d hd
  unfold aiSentenceMarkMine at ht'
  rcases listModify_mem _ _ i t' ht' with hmem | ⟨y, hy, rfl⟩
  · exact h1 t' hmem d hd
  · have hdy : d ∈ y.cells := mark_mine_cells_subset y c hd
    exact h1 y hy d hdy

/-- The combined global-plus-local safe marking preserves the invariant. -/
theorem noResolved_aiSentenceMarkSafe (s : AIState) (i : ℕ) (c : Cell)
    (h : noResolved s) : noResolved (aiSentenceMarkSafe s i c) := by
  have h1 := noResolved_mark_safe s c h
  intro t' ht' d hd
  unfold aiSentenceMarkSafe at ht'
  rcases listModify_mem _ _ i t' ht' with hmem | ⟨y, hy, rfl⟩
  · exact h1 t' hmem d hd
  · have hdy : d ∈ y.cells := mark_safe_cells_subset y c hd
    exact h1 y hy d hdy

/-- Marking a list of mine cells preserves the invariant. -/
theorem noResolved_markCellsMineAt (s : AIState) (i : ℕ) (cs : List Cell)
    (h : noResolved s) : noResolved (markCellsMineAt s i cs) :=
  foldlPreserve noResolved cs _ (fun a b _ ha => noResolved_aiSentenceMarkMine a i b ha) s h

/-- Marking a list of safe cells preserves the invariant. -/
theorem noResolved_markCellsSafeAt (s : AIState) (i : ℕ) (cs : List Cell)
    (h : noResolved s) : noResolved (markCellsSafeAt s i cs) :=
  foldlPreserve noResolved cs _ (fun a b _ ha => noResolved_aiSentenceMarkSafe a i b ha) s h

/-- One step-4 iteration preserves the invariant. -/
theorem noResolved_step4At (acc : AIState × Bool) (i : ℕ) (h : noResolved acc.1) :
    noResolved (step4At acc i).1 := by
  unfold step4At
  split
  · exact h
  · have h1 : ∀ acc1 : AIState × Bool, noResolved acc1.1 →
        noResolved (match acc1.1.knowledge.get? i with
          | none => acc1
          | some sent1 =>
            match sent1.known_mines with
            | some km => (markCellsMineAt acc1.1 i (cellList km), true)
            | none => acc1).1 := by
      intro acc1 h1
      split
      · exact h1
      · split
        · exact noResolved_markCellsMineAt _ _ _ h1
        · exact h1
    split
    · exact h1 _ (noResolved_markCellsSafeAt _ _ _ h)
    · exact h1 _ h

/-- Step 4 preserves the invariant. -/
theorem noResolved_step4 (s : AIState) (h : noResolved s) : noResolved (step4 s).1 := by
  unfold step4
  exact foldlPreserve (fun acc : AIState × Bool => noResolved acc.1) _ _
    (fun a b _ ha => noResolved_step4At a b ha) (s, false) h

/-- Members survive `removeFirst`. -/
theorem removeFirst_mem (t x : Sentence) (l : List Sentence)
    (hx : x ∈ removeFirst t l) : x ∈ l := by
  induction l with
  | nil => cases hx
  | cons a as ih =>
    unfold removeFirst at hx
    split at hx
    · exact List.mem_cons_of_mem _ hx
    · rcases List.mem_cons.mp hx with rfl | hx'
      · exact List.mem_cons_self _ _
      · exact List.mem_cons_of_mem _ (ih hx')

/-- Members survive the removal phase. -/
theorem removalPhase_mem (l : List Sentence) (x : Sentence)
    (hx : x ∈ removalPhase l) : x ∈ l := by
  unfold removalPhase at hx
  split at hx
  · exact removeFirst_mem _ _ _ hx
  · exact hx

/-- Replacing the knowledge base by sentences whose cells are covered by
current sentences preserves the invariant. -/
theorem noResolved_of_covered (s : AIState) (l' : List Sentence)
    (hcov : ∀ t' ∈ l', ∃ t ∈ s.knowledge, t'.cells ⊆ t.cells)
    (h : noResolved s) : noResolved { s with knowledge := l' } := by
  intro t' ht' d hd
  obtain ⟨t, ht, hsub⟩ := hcov t' ht'
  exact h t ht d (hsub hd)

/-- A full propagation pass preserves the invariant. -/
theorem noResolved_updatePass (s : AIState) (h : noResolved s) :
    noResolved (updatePass s).1 := by
  have h4 := noResolved_step4 s h
  unfold updatePass
  refine noResolved_of_covered (step4 s).1 _ ?_ h4
  intro t' ht'
  obtain ⟨ext, hext, -, hprop, -⟩ := step5_spec (removalPhase (step4 s).1.knowledge) (step4 s).2
  rw [hext] at ht'
  rcases List.mem_append.mp ht' with hmem | hmem
  · exact ⟨t', removalPhase_mem _ _ hmem, le_refl _⟩
  · obtain ⟨-, t1, -, t2, ht2, -, -, rfl⟩ := hprop t' hmem
    exact ⟨t2, removalPhase_mem _ _ ht2, Finset.sdiff_subset⟩

/-- A terminating propagation run preserves the invariant. -/
theorem noResolved_updateKnowledge (n : ℕ) (s s' : AIState)
    (hrun : updateKnowledge n s = some s') (h : noResolved s) : noResolved s' := by
  induction n generalizing s with
  | zero => cases hrun
  | succ m ih =>
    unfold updateKnowledge at hrun
    by_cases hc : (updatePass s).2
    · rw [if_pos hc] at hrun
      exact ih _ hrun (noResolved_updatePass s h)
    · rw [if_neg hc] at hrun
      exact Option.some.inj hrun ▸ noResolved_updatePass s h

/-- The cells collected by the neighbor scan avoid the current `mines`
and `safes` sets. -/
theorem neighborScan_cells (s : AIState) (cell : Cell) (count : ℤ) :
    ∀ c ∈ (neighborScan s cell count).1, c ∉ s.mines ∧ c ∉ s.safes := by
  unfold neighborScan
  refine foldlPreserve
    (fun acc : Finset Cell × ℤ => ∀ c ∈ acc.1, c ∉ s.mines ∧ c ∉ s.safes) _ _ ?_ _ ?_
  · intro a i _ ha
    refine foldlPreserve
      (fun acc : Finset Cell × ℤ => ∀ c ∈ acc.1, c ∉ s.mines ∧ c ∉ s.safes) _ _ ?_ a ha
    intro b j _ hb c hc
    by_cases h1 : ((i, j) : Cell) = cell
    · rw [if_pos h1] at hc; exact hb c hc
    · rw [if_neg h1] at hc
      by_cases h2 : ((i, j) : Cell) ∈ s.mines
      · rw [if_pos h2] at hc; exact hb c hc
      · rw [if_neg h2] at hc
        by_cases h3 : ((i, j) : Cell) ∉ s.safes
        · rw [if_pos h3] at hc
          rcases Finset.mem_insert.mp hc with rfl | hc'
          · exact ⟨h2, h3⟩
          · exact hb c hc'
        · rw [if_neg h3] at hc; exact hb c hc
  · intro c hc
    cases hc

/-- The append phase of `add_knowledge` preserves the invariant. -/
theorem noResolved_addKnowledgeAppend (s : AIState) (cell : Cell) (count : ℤ)
    (h : noResolved s) : noResolved (addKnowledgeAppend s cell count) := by
  unfold addKnowledgeAppend
  have h1 : noResolved { s with moves_made := insert cell s.moves_made } := h
  have h2 := noResolved_mark_safe _ cell h1
  intro t' ht' d hd
  rcases List.mem_append.mp ht' with hmem | hmem
  · exact h2 t' hmem d hd
  · rw [List.mem_singleton] at hmem
    subst hmem
    have := neighborScan_cells
      (MinesweeperAI.mark_safe { s with moves_made := insert cell s.moves_made } cell)
      cell count d hd
    exact ⟨this.2, this.1⟩

/-- Claim C2, amended: in every reachable agent state, no sentence of the
knowledge base contains a cell of `safes` or of `mines`.  (The claimed
disjointness of `safes` and `mines` does not hold in general; see the
counterexample where a cell is marked mine and then safe.) -/
theorem c2_reachable_no_resolved_cells (s : AIState) (h : Reachable s) : noResolved s := by
  induction h with
  | init height width => intro t ht; cases ht
  | mark_mine c _ ih => exact noResolved_mark_mine _ c ih
  | mark_safe c _ ih => exact noResolved_mark_safe _ c ih
  | add_knowledge fuel cell count _ hrun ih =>
    exact noResolved_updateKnowledge _ _ _ hrun (noResolved_addKnowledgeAppend _ cell count ih)

/-- Witness for the amended C2 at a concrete reachable state. -/
theorem c2_reachable_no_resolved_cells_witness :
    noResolved (MinesweeperAI.mark_mine (initAI 2 2) (0, 0)) :=
  c2_reachable_no_resolved_cells _ (Reachable.mark_mine _ (Reachable.init 2 2))

/-!
Monotonicity of the recorded cell sets (`moves_made`, `safes`, `mines`).
-/

/-- The three recorded sets of the post-state contain those of the pre-state. -/
def grows (s s' : AIState) : Prop :=
  s.moves_made ⊆ s'.moves_made ∧ s.safes ⊆ s'.safes ∧ s.mines ⊆ s'.mines

/-- `grows` is reflexive. -/
theorem grows_refl (s : AIState) : grows s s :=
  ⟨Finset.Subset.refl _, Finset.Subset.refl _, Finset.Subset.refl _⟩

/-- `grows` is transitive. -/
theorem grows_trans {a b c : AIState} (h1 : grows a b) (h2 : grows b c) : grows a c :=
  ⟨h1.1.trans h2.1, h1.2.1.trans h2.2.1, h1.2.2.trans h2.2.2⟩

/-- `mark_mine` only grows the recorded sets. -/
theorem grows_mark_mine (s : AIState) (c : Cell) : grows s (MinesweeperAI.mark_mine s c) :=
  ⟨Finset.Subset.refl _, Finset.Subset.refl _, Finset.subset_insert _ _⟩

/-- `mark_safe` only grows the recorded sets. -/
theorem grows_mark_safe (s : AIState) (c : Cell) : grows s (MinesweeperAI.mark_safe s c) :=
  ⟨Finset.Subset.refl _, Finset.subset_insert _ _, Finset.Subset.refl _⟩

/-- The combined global-plus-local mine marking only grows the sets. -/
theorem grows_aiSentenceMarkMine (s : AIState) (i : ℕ) (c : Cell) :
    grows s (aiSentenceMarkMine s i c) :=
  grows_mark_mine s c

/-- The combined global-plus-local safe marking only grows the sets. -/
theorem grows_aiSentenceMarkSafe (s : AIState) (i : ℕ) (c : Cell) :
    grows s (aiSentenceMarkSafe s i c) :=
  grows_mark_safe s c

/-- Marking a list of mine cells only grows the sets. -/
theorem grows_markCellsMineAt (s : AIState) (i : ℕ) (cs : List Cell) :
    grows s (markCellsMineAt s i cs) :=
  foldlPreserve (grows s) cs _
    (fun a b _ ha => grows_trans ha (grows_aiSentenceMarkMine a i b)) s (grows_refl s)

/-- Marking a list of safe cells only grows the sets. -/
theorem grows_markCellsSafeAt (s : AIState) (i : ℕ) (cs : List Cell) :
    grows s (markCellsSafeAt s i cs) :=
  foldlPreserve (grows s) cs _
    (fun a b _ ha => grows_trans ha (grows_aiSentenceMarkSafe a i b)) s (grows_refl s)

/-- One step-4 iteration only grows the sets. -/
theorem grows_step4At (acc : AIState × Bool) (i : ℕ) : grows acc.1 (step4At acc i).1 := by
  unfold step4At
  split
  · exact grows_refl _
  · have h1 : ∀ acc1 : AIState × Bool, grows acc.1 acc1.1 →
        grows acc.1 (match acc1.1.knowledge.get? i with
          | none => acc1
          | some sent1 =>
            match sent1.known_mines with
            | some km => (markCellsMineAt acc1.1 i (cellList km), true)
            | none => acc1).1 := by
      intro acc1 h1
      split
      · exact h1
      · split
        · exact grows_trans h1 (grows_markCellsMineAt _ _ _)
        · exact h1
    split
    · exact h1 _ (grows_markCellsSafeAt _ _ _)
    · exact h1 _ (grows_refl _)

/-- Step 4 only grows the sets. -/
theorem grows_step4 (s : AIState) : grows s (step4 s).1 := by
  unfold step4
  exact foldlPreserve (fun acc : AIState × Bool => grows s acc.1) _ _
    (fun a b _ ha => grows_trans ha (grows_step4At a b)) (s, false) (grows_refl s)

/-- A full propagation pass only grows the sets. -/
theorem grows_updatePass (s : AIState) : grows s (updatePass s).1 := by
  unfold updatePass
  exact grows_step4 s

/-- A terminating propagation run only grows the sets. -/
theorem grows_updateKnowledge (n : ℕ) (s s' : AIState)
    (hrun : updateKnowledge n s = some s') : grows s s' := by
  induction n generalizing s with
  | zero => cases hrun
  | succ m ih =>
    unfold updateKnowledge at hrun
    by_cases hc : (updatePass s).2
    · rw [if_pos hc] at hrun
      exact grows_trans (grows_updatePass s) (ih _ hrun)
    · rw [if_neg hc] at hrun
      exact Option.some.inj hrun ▸ grows_updatePass s

/-- Claim C10: across the mutating public operations (`mark_mine`,
`mark_safe`, and every terminating `add_knowledge`), the recorded sets
`moves_made`, `safes`, `mines` grow monotonically.  (`make_safe_move`
and `make_random_move` perform no assignment at all: in this embedding
they are functions returning only a cell, so they have no post-state.) -/
theorem c10_monotone_sets :
    (∀ (s : AIState) (c : Cell), grows s (MinesweeperAI.mark_mine s c)) ∧
    (∀ (s : AIState) (c : Cell), grows s (MinesweeperAI.mark_safe s c)) ∧
    (∀ (fuel : ℕ) (s : AIState) (cell : Cell) (count : ℤ) (s' : AIState),
        addKnowledge fuel s cell count = some s' → grows s s') := by
  refine ⟨grows_mark_mine, grows_mark_safe, ?_⟩
  intro fuel s cell count s' hrun
  unfold addKnowledge at hrun
  have h1 : grows s (addKnowledgeAppend s cell count) := by
    unfold addKnowledgeAppend
    refine grows_trans (b := { s with moves_made := insert cell s.moves_made })
      ⟨Finset.subset_insert _ _, Finset.Subset.refl _, Finset.Subset.refl _⟩ ?_
    exact grows_mark_safe _ cell
  exact grows_trans h1 (grows_updateKnowledge _ _ _ hrun)

/-- The state after a terminating `add_knowledge((0,0), 0)` on a fresh 2x2 agent. -/
def sC10 : AIState := (addKnowledge 2 (initAI 2 2) (0, 0) 0).getD noAI

/-- Witness for C10 at a concrete terminating `add_knowledge` call. -/
theorem c10_monotone_sets_witness : grows (initAI 2 2) sC10 := by
  have hs : (addKnowledge 2 (initAI 2 2) (0, 0) 0).isSome = true := by decide
  obtain ⟨x, hx⟩ := Option.isSome_iff_exists.mp hs
  have hgd : sC10 = x := by unfold sC10; rw [hx]; rfl
  rw [hgd]
  exact c10_monotone_sets.2.2 2 (initAI 2 2) (0, 0) 0 x hx

/-!
Claim C4, counterexample: a state from which `update_knowledge` never
reaches an unchanged pass.  All counts are congruent (mod 7) to three
times the size of the cell set, with residues chosen so that no sentence
ever triggers `known_safes` or `known_mines`; subset resolution then
keeps deriving sentences with new counts forever.
-/

/-- The three cells of the divergence seed. -/
def cA : Cell := (0, 0)

/-- Second cell of the divergence seed. -/
def cB : Cell := (0, 1)

/-- Third cell of the divergence seed. -/
def cC : Cell := (0, 2)

/-- The four seed sentences. -/
def c4Seeds : List Sentence :=
  [⟨{cA}, 3⟩, ⟨{cA}, -4⟩, ⟨{cA, cB}, 6⟩, ⟨{cA, cB, cC}, 16⟩]

/-- The divergent agent state over the (finite) default 8x8 board. -/
def c4State : AIState := ⟨8, 8, ∅, ∅, ∅, c4Seeds⟩

/-- Sentences over `{cA, cB, cC}` whose count is congruent to three times
the cell count modulo 7. -/
def goodS (t : Sentence) : Prop :=
  t.cells ⊆ {cA, cB, cC} ∧ t.cells ≠ ∅ ∧ t.count % 7 = (3 * (t.cells.card : ℤ)) % 7

instance (t : Sentence) : Decidable (goodS t) := by
  unfold goodS; infer_instance

/-- The invariant along the divergent run: every sentence is good and the
four seeds are still present. -/
def c4Inv (s : AIState) : Prop :=
  (∀ t ∈ s.knowledge, goodS t) ∧ (∀ t ∈ c4Seeds, t ∈ s.knowledge)

instance (s : AIState) : Decidable (c4Inv s) := by
  unfold c4Inv; infer_instance

/-- A good sentence triggers neither conclusion. -/
theorem goodS_noTrigger (t : Sentence) (h : goodS t) :
    t.known_safes = none ∧ t.known_mines = none := by
  obtain ⟨hsub, hne, hmod⟩ := h
  have hcard3 : t.cells.card ≤ 3 := by
    calc t.cells.card ≤ ({cA, cB, cC} : Finset Cell).card := Finset.card_le_card hsub
    _ = 3 := by decide
  have hcard1 : 1 ≤ t.cells.card := Finset.card_pos.mpr (Finset.nonempty_iff_ne_empty.mpr hne)
  constructor
  · unfold Sentence.known_safes
    rw [if_neg]
    intro hcond
    rw [hcond.1] at hmod
    interval_cases h : t.cells.card <;> omega
  · unfold Sentence.known_mines
    rw [if_neg]
    intro hcond
    rw [← hcond.1] at hmod
    interval_cases h : t.cells.card <;> omega

/-- A sentence found by `get?` is a member of the list. -/
theorem mem_of_getq {α : Type} (l : List α) (n : ℕ) (a : α) (h : l.get? n = some a) :
    a ∈ l := by
  induction l generalizing n with
  | nil => cases h
  | cons b bs ih =>
    cases n with
    | zero => exact (Option.some.inj h) ▸ List.mem_cons_self _ _
    | succ m => exact List.mem_cons_of_mem _ (ih m h)

/-- When no sentence triggers a conclusion, step 4 is the identity and
reports no change. -/
theorem step4_id_of_noTrigger (s : AIState)
    (h : ∀ t ∈ s.knowledge, t.known_safes = none ∧ t.known_mines = none) :
    step4 s = (s, false) := by
  unfold step4
  refine foldlPreserve (fun acc : AIState × Bool => acc = (s, false)) _ _ ?_ _ rfl
  intro acc i _ hacc
  subst hacc
  unfold step4At
  cases hget : (s, false).1.knowledge.get? i with
  | none => rfl
  | some sent =>
    have hmem := mem_of_getq _ _ _ hget
    simp only [hget]
    rw [(h sent hmem).1]
    simp only [hget]
    rw [(h sent hmem).2]

/-- When no sentence has an empty cell set, the removal phase is the identity. -/
theorem removalPhase_id (l : List Sentence) (h : ∀ t ∈ l, t.cells ≠ ∅) :
    removalPhase l = l := by
  unfold removalPhase
  have : l.find? (fun t => decide (t.cells = ∅)) = none := by
    rw [List.find?_eq_none]
    intro t ht
    simpa using h t ht
  rw [this]

/-- Subset resolution preserves goodness. -/
theorem goodS_derive (t1 t2 : Sentence) (h1 : goodS t1) (h2 : goodS t2)
    (hsub : t1.cells ⊂ t2.cells) : goodS (deriveSentence t1 t2) := by
  obtain ⟨hs1, -, hm1⟩ := h1
  obtain ⟨hs2, -, hm2⟩ := h2
  have hle : t1.cells ⊆ t2.cells := hsub.subset
  refine ⟨Finset.Subset.trans Finset.sdiff_subset hs2, ?_, ?_⟩
  · obtain ⟨x, hx2, hx1⟩ := Finset.exists_of_ssubset hsub
    exact fun hemp => (Finset.eq_empty_iff_forall_not_mem.mp hemp x)
      (Finset.mem_sdiff.mpr ⟨hx2, hx1⟩)
  · have hcle : t1.cells.card ≤ t2.cells.card := Finset.card_le_card hle
    have hcells : (deriveSentence t1 t2).cells = t2.cells \ t1.cells := rfl
    have hcount : (deriveSentence t1 t2).count = t2.count - t1.count := rfl
    rw [hcells, hcount, Finset.card_sdiff hle, Nat.cast_sub hcle]
    omega

/-- Under the invariant, a full pass only appends newly derived
sentences, and when it reports no change the knowledge base is closed
under subset resolution. -/
theorem c4_pass (s : AIState) (h : c4Inv s) :
    c4Inv (updatePass s).1 ∧
      ((updatePass s).2 = false →
        (∀ e, Derivable s.knowledge e → e ∈ s.knowledge)) := by
  obtain ⟨hgood, hseeds⟩ := h
  have hnt : ∀ t ∈ s.knowledge, t.known_safes = none ∧ t.known_mines = none :=
    fun t ht => goodS_noTrigger t (hgood t ht)
  have h4 : step4 s = (s, false) := step4_id_of_noTrigger s hnt
  have hne : ∀ t ∈ s.knowledge, t.cells ≠ ∅ := fun t ht => (hgood t ht).2.1
  have hrem : removalPhase s.knowledge = s.knowledge := removalPhase_id _ hne
  obtain ⟨ext, hext, hnd, hprop, hflag⟩ := step5_spec s.knowledge false
  have hpass : updatePass s =
      ({ s with knowledge := (step5 s.knowledge false).1 }, (step5 s.knowledge false).2) := by
    simp only [updatePass, h4, hrem]
  constructor
  · rw [hpass]
    constructor
    · intro t ht
      simp only at ht
      rw [hext] at ht
      rcases List.mem_append.mp ht with hmem | hmem
      · exact hgood t hmem
      · obtain ⟨-, t1, ht1, t2, ht2, -, hsub, rfl⟩ := hprop t hmem
        exact goodS_derive t1 t2 (hgood t1 ht1) (hgood t2 ht2) hsub
    · intro t ht
      simp only
      rw [hext]
      exact List.mem_append_left _ (hseeds t ht)
  · intro hfl e hde
    rw [hpass] at hfl
    simp only at hfl
    rw [hflag] at hfl
    simp only [Bool.false_or] at hfl
    have hempty : ext = [] := by
      cases ext with
      | nil => rfl
      | cons a as => simp [List.isEmpty] at hfl
    obtain ⟨t1, ht1, t2, ht2, hne12, hsub, rfl⟩ := hde
    have := step5_hits s.knowledge false t1 t2 ht1 ht2 hne12 hsub
    rw [hext, hempty, List.append_nil] at this
    exact this

/-- The closure of the seeds under subset resolution. -/
inductive InClos : Sentence → Prop where
  | seed (t : Sentence) (h : t ∈ c4Seeds) : InClos t
  | step (t1 t2 : Sentence) (h1 : InClos t1) (h2 : InClos t2) (hne : t1 ≠ t2)
      (hsub : t1.cells ⊂ t2.cells) : InClos (deriveSentence t1 t2)

/-- A list containing the seeds and closed under subset resolution
contains the whole closure. -/
theorem inClos_mem (l : List Sentence) (hseed : ∀ t ∈ c4Seeds, t ∈ l)
    (hclosed : ∀ e, Derivable l e → e ∈ l) : ∀ t, InClos t → t ∈ l := by
  intro t ht
  induction ht with
  | seed t h => exact hseed t h
  | step t1 t2 h1 h2 hne hsub ih1 ih2 =>
    exact hclosed _ ⟨t1, ih1, t2, ih2, hne, hsub, rfl⟩

/-- Sentences with different cell sets are different. -/
theorem sentence_ne_of_cells_ne (t1 t2 : Sentence) (h : t1.cells ≠ t2.cells) :
    t1 ≠ t2 :=
  fun he => h (he ▸ rfl)

/-- Rewriting form of a subset-resolution derivation. -/
theorem deriveSentence_eq (t1 t2 : Sentence) (T : Finset Cell)
    (hT : t2.cells \ t1.cells = T) :
    deriveSentence t1 t2 = ⟨T, t2.count - t1.count⟩ := by
  unfold deriveSentence
  rw [hT]

/-- Closure step with the cell sets given explicitly. -/
theorem inClos_step_sets (T1 T2 T : Finset Cell) (x1 x2 : ℤ)
    (h1 : InClos ⟨T1, x1⟩) (h2 : InClos ⟨T2, x2⟩)
    (hne : T1 ≠ T2) (hsub : T1 ⊂ T2) (hT : T2 \ T1 = T) :
    InClos ⟨T, x2 - x1⟩ := by
  have h := InClos.step _ _ h1 h2 (sentence_ne_of_cells_ne _ _ hne) hsub
  rwa [deriveSentence_eq _ _ T hT] at h

/-- The derivation chain: from two closure counts on `{cA}` a third one
is derivable, drifting by their difference. -/
theorem inClos_chain (x x' : ℤ) (h1 : InClos ⟨{cA}, x⟩) (h2 : InClos ⟨{cA}, x'⟩) :
    InClos ⟨{cA}, 2 * x' - x⟩ := by
  have hAB : InClos ⟨{cA, cB}, 6⟩ := InClos.seed _ (by decide)
  have hR : InClos ⟨{cA, cB, cC}, 16⟩ := InClos.seed _ (by decide)
  have d1 : InClos ⟨{cB}, 6 - x⟩ :=
    inClos_step_sets {cA} {cA, cB} {cB} x 6 h1 hAB (by decide) (by decide) (by decide)
  have d1' : InClos ⟨{cB}, 6 - x'⟩ :=
    inClos_step_sets {cA} {cA, cB} {cB} x' 6 h2 hAB (by decide) (by decide) (by decide)
  have d2 : InClos ⟨{cB, cC}, 16 - x'⟩ :=
    inClos_step_sets {cA} {cA, cB, cC} {cB, cC} x' 16 h2 hR (by decide) (by decide) (by decide)
  have d3 : InClos ⟨{cC}, (16 - x') - (6 - x)⟩ :=
    inClos_step_sets {cB} {cB, cC} {cC} (6 - x) (16 - x') d1 d2
      (by decide) (by decide) (by decide)
  have d4 : InClos ⟨{cA, cB}, 16 - ((16 - x') - (6 - x))⟩ :=
    inClos_step_sets {cC} {cA, cB, cC} {cA, cB} ((16 - x') - (6 - x)) 16 d3 hR
      (by decide) (by decide) (by decide)
  have d5 : InClos ⟨{cA}, (16 - ((16 - x') - (6 - x))) - (6 - x')⟩ :=
    inClos_step_sets {cB} {cA, cB} {cA} (6 - x') (16 - ((16 - x') - (6 - x))) d1' d4
      (by decide) (by decide) (by decide)
  have he : (16 - ((16 - x') - (6 - x))) - (6 - x') = 2 * x' - x := by ring
  rwa [he] at d5

/-- The closure contains `{cA} = 3 - 7k` for every natural `k`. -/
theorem inClos_A (k : ℕ) : InClos ⟨{cA}, 3 - 7 * (k : ℤ)⟩ := by
  induction k using Nat.twoStepInduction with
  | zero =>
    have he : (3 - 7 * ((0 : ℕ) : ℤ)) = 3 := by norm_num
    rw [he]
    exact InClos.seed _ (by decide)
  | one =>
    have he : (3 - 7 * ((1 : ℕ) : ℤ)) = -4 := by norm_num
    rw [he]
    exact InClos.seed _ (by decide)
  | more n ih1 ih2 =>
    have h := inClos_chain (3 - 7 * (n : ℤ)) (3 - 7 * ((n + 1 : ℕ) : ℤ)) ih1 ih2
    have he : 2 * (3 - 7 * ((n + 1 : ℕ) : ℤ)) - (3 - 7 * (n : ℤ)) =
        3 - 7 * ((n + 2 : ℕ) : ℤ) := by
      push_cast
      ring
    rwa [he] at h

/-- No list containing the seeds is closed under subset resolution: the
closure holds infinitely many distinct sentences. -/
theorem c4_not_closed (l : List Sentence) (hseed : ∀ t ∈ c4Seeds, t ∈ l) :
    ¬ (∀ e, Derivable l e → e ∈ l) := by
  intro hclosed
  have hall : ∀ k : ℕ, (⟨{cA}, 3 - 7 * (k : ℤ)⟩ : Sentence) ∈ l :=
    fun k => inClos_mem l hseed hclosed _ (inClos_A k)
  have hinj : Function.Injective (fun k : ℕ => (⟨{cA}, 3 - 7 * (k : ℤ)⟩ : Sentence)) := by
    intro a b hab
    have hc := congrArg Sentence.count hab
    simp only at hc
    omega
  have hsub : (Finset.range (l.length + 1)).image
      (fun k : ℕ => (⟨{cA}, 3 - 7 * (k : ℤ)⟩ : Sentence)) ⊆ l.toFinset := by
    intro x hx
    obtain ⟨k, -, rfl⟩ := Finset.mem_image.mp hx
    exact List.mem_toFinset.mpr (hall k)
  have hcard : l.length + 1 ≤ l.toFinset.card := by
    calc l.length + 1
        = ((Finset.range (l.length + 1)).image
            (fun k : ℕ => (⟨{cA}, 3 - 7 * (k : ℤ)⟩ : Sentence))).card := by
          rw [Finset.card_image_of_injective _ hinj, Finset.card_range]
    _ ≤ l.toFinset.card := Finset.card_le_card hsub
  have hle : l.toFinset.card ≤ l.length := List.toFinset_card_le l
  omega

/-- Under the invariant, every pass preserves it and reports a change. -/
theorem c4_march (s : AIState) (h : c4Inv s) :
    c4Inv (updatePass s).1 ∧ (updatePass s).2 = true := by
  obtain ⟨hinv, hflag⟩ := c4_pass s h
  refine ⟨hinv, ?_⟩
  by_contra hfl
  rw [Bool.not_eq_true] at hfl
  exact c4_not_closed s.knowledge h.2 (hflag hfl)

/-- From any invariant state, `update_knowledge` runs out of any fuel. -/
theorem c4_no_fuel (n : ℕ) : ∀ s : AIState, c4Inv s → updateKnowledge n s = none := by
  induction n with
  | zero => intro s _; rfl
  | succ m ih =>
    intro s hs
    obtain ⟨hinv, hfl⟩ := c4_march s hs
    unfold updateKnowledge
    rw [if_pos hfl]
    exact ih _ hinv

/-- Claim C4 is false as stated: from the agent state `c4State` over the
default 8x8 board, the propagation procedure never reaches a pass with
no change — `update_knowledge` diverges, whatever fuel it is given. -/
theorem c4_divergent_state :
    ¬ ∃ (n : ℕ) (s' : AIState), updateKnowledge n c4State = some s' := by
  rintro ⟨n, s', hs⟩
  rw [c4_no_fuel n c4State (by decide)] at hs
  cases hs

/-!
Claim C4, amended part: termination of `update_knowledge` from every
state whose knowledge is satisfied by some mine assignment and mentions
no resolved cell.  The lexicographic measure is (unresolved mentioned
cells, possible sentences not yet in the knowledge base).
-/

/-- A mine assignment `M` satisfies a sentence when the count equals the
number of its cells lying in `M`. -/
def Satisfies (M : Finset Cell) (t : Sentence) : Prop :=
  t.count = ((t.cells ∩ M).card : ℤ)

/-- Consistency of an agent state with a mine assignment `M`: every
sentence is satisfied, recorded mines lie in `M`, recorded safes lie
outside `M`, and no sentence mentions a resolved cell. -/
def ConsistentState (M : Finset Cell) (s : AIState) : Prop :=
  (∀ t ∈ s.knowledge, Satisfies M t) ∧ s.mines ⊆ M ∧ (∀ c ∈ s.safes, c ∉ M) ∧ noResolved s

/-- A state is consistent when some mine assignment satisfies it. -/
def ConsistentAI (s : AIState) : Prop := ∃ M, ConsistentState M s

/-- All cells mentioned by the knowledge base. -/
def kbCells (l : List Sentence) : Finset Cell :=
  l.foldr (fun t acc => t.cells ∪ acc) ∅

/-- The resolved cells of a state. -/
def resolvedSet (s : AIState) : Finset Cell := s.safes ∪ s.mines

/-- First measure component: mentioned cells not yet resolved. -/
def m1 (s : AIState) : ℕ := (kbCells s.knowledge \ resolvedSet s).card

/-- All sentences over a cell universe `U` with a non-empty cell set and
a count between 0 and the cell count. -/
def possibleSentences (U : Finset Cell) : Finset Sentence :=
  (U.powerset.filter (fun T => T ≠ ∅)).biUnion
    (fun T => (Finset.Icc (0 : ℤ) (T.card : ℤ)).image (fun c => Sentence.mk T c))

/-- Second measure component: possible sentences not yet present. -/
def m2 (s : AIState) : ℕ :=
  (possibleSentences (kbCells s.knowledge) \ s.knowledge.toFinset).card

/-- Membership in `kbCells`. -/
theorem mem_kbCells (l : List Sentence) (c : Cell) :
    c ∈ kbCells l ↔ ∃ t ∈ l, c ∈ t.cells := by
  induction l with
  | nil => simp [kbCells]
  | cons a as ih =>
    unfold kbCells at ih ⊢
    simp only [List.foldr_cons, Finset.mem_union, ih, List.mem_cons]
    constructor
    · rintro (h | ⟨t, ht, hc⟩)
      · exact ⟨a, Or.inl rfl, h⟩
      · exact ⟨t, Or.inr ht, hc⟩
    · rintro ⟨t, rfl | ht, hc⟩
      · exact Or.inl hc
      · exact Or.inr ⟨t, ht, hc⟩

/-- Cell-wise coverage gives inclusion of mentioned cells. -/
theorem kbCells_mono (l l' : List Sentence)
    (hcov : ∀ t' ∈ l', ∃ t ∈ l, t'.cells ⊆ t.cells) : kbCells l' ⊆ kbCells l := by
  intro c hc
  obtain ⟨t', ht', hct⟩ := (mem_kbCells l' c).mp hc
  obtain ⟨t, ht, hsub⟩ := hcov t' ht'
  exact (mem_kbCells l c).mpr ⟨t, ht, hsub hct⟩

/-- Membership in `possibleSentences`. -/
theorem mem_possibleSentences (U : Finset Cell) (t : Sentence) :
    t ∈ possibleSentences U ↔
      t.cells ⊆ U ∧ t.cells ≠ ∅ ∧ 0 ≤ t.count ∧ t.count ≤ (t.cells.card : ℤ) := by
  unfold possibleSentences
  simp only [Finset.mem_biUnion, Finset.mem_filter, Finset.mem_powerset, Finset.mem_image,
    Finset.mem_Icc]
  constructor
  · rintro ⟨T, ⟨hTU, hTne⟩, c, ⟨hc0, hcT⟩, rfl⟩
    exact ⟨hTU, hTne, hc0, hcT⟩
  · rintro ⟨hTU, hTne, hc0, hcT⟩
    exact ⟨t.cells, ⟨hTU, hTne⟩, t.count, ⟨hc0, hcT⟩, rfl⟩

/-- The listing of a cell set is, as a multiset, the cell set itself. -/
theorem cellList_coe (t : Finset Cell) : ((cellList t : List Cell) : Multiset Cell) = t.val := by
  obtain ⟨m, hm⟩ := t
  induction m using Quotient.inductionOn with
  | h l => exact Quot.sound (List.perm_insertionSort cellLe l)

/-- Membership in the listing of a cell set. -/
theorem mem_cellList (t : Finset Cell) (a : Cell) : a ∈ cellList t ↔ a ∈ t := by
  have h := cellList_coe t
  constructor
  · intro ha
    have : a ∈ ((cellList t : List Cell) : Multiset Cell) := by
      rwa [Multiset.mem_coe]
    rw [h] at this
    exact this
  · intro ha
    have : a ∈ t.val := ha
    rw [← h, Multiset.mem_coe] at this
    exact this

/-- The listing of a non-empty cell set is non-empty. -/
theorem cellList_ne_nil (t : Finset Cell) (h : t ≠ ∅) : cellList t ≠ [] := by
  obtain ⟨a, ha⟩ := Finset.nonempty_iff_ne_empty.mpr h
  intro hnil
  have := (mem_cellList t a).mpr ha
  rw [hnil] at this
  cases this

/-- Shrinkage relation between states along a pass: mentioned cells only
shrink, resolved cells only grow. -/
def Shrinks (s s' : AIState) : Prop :=
  kbCells s'.knowledge ⊆ kbCells s.knowledge ∧ resolvedSet s ⊆ resolvedSet s'

/-- `Shrinks` is reflexive. -/
theorem shrinks_refl (s : AIState) : Shrinks s s :=
  ⟨Finset.Subset.refl _, Finset.Subset.refl _⟩

/-- `Shrinks` is transitive. -/
theorem shrinks_trans {a b c : AIState} (h1 : Shrinks a b) (h2 : Shrinks b c) : Shrinks a c :=
  ⟨h2.1.trans h1.1, h1.2.trans h2.2⟩

/-- The first measure is monotone along shrinkage. -/
theorem m1_le_of_shrinks {s s' : AIState} (h : Shrinks s s') : m1 s' ≤ m1 s := by
  refine Finset.card_le_card ?_
  intro c hc
  rw [Finset.mem_sdiff] at hc ⊢
  exact ⟨h.1 hc.1, fun hr => hc.2 (h.2 hr)⟩

/-- The first measure drops strictly when a mentioned unresolved cell
becomes resolved. -/
theorem m1_lt_of_shrinks {s s' : AIState} (h : Shrinks s s') (c : Cell)
    (hkb : c ∈ kbCells s.knowledge) (hres : c ∉ resolvedSet s)
    (hres' : c ∈ resolvedSet s') : m1 s' < m1 s := by
  have hsub : kbCells s'.knowledge \ resolvedSet s' ⊆
      (kbCells s.knowledge \ resolvedSet s).erase c := by
    intro x hx
    rw [Finset.mem_sdiff] at hx
    rw [Finset.mem_erase, Finset.mem_sdiff]
    refine ⟨fun hxc => hx.2 (hxc ▸ hres'), h.1 hx.1, fun hr => hx.2 (h.2 hr)⟩
  calc m1 s' ≤ ((kbCells s.knowledge \ resolvedSet s).erase c).card :=
        Finset.card_le_card hsub
  _ < (kbCells s.knowledge \ resolvedSet s).card :=
        Finset.card_erase_lt_of_mem (Finset.mem_sdiff.mpr ⟨hkb, hres⟩)
  _ = m1 s := rfl

/-- Marking a true mine preserves satisfaction. -/
theorem satisfies_mark_mine (M : Finset Cell) (t : Sentence) (c : Cell) (hc : c ∈ M)
    (h : Satisfies M t) : Satisfies M (t.mark_mine c) := by
  unfold Sentence.mark_mine
  split
  · rename_i hct
    have hmem : c ∈ t.cells ∩ M := Finset.mem_inter.mpr ⟨hct, hc⟩
    have hpos : 0 < (t.cells ∩ M).card := Finset.card_pos.mpr ⟨c, hmem⟩
    unfold Satisfies at h ⊢
    simp only
    rw [Finset.erase_inter, Finset.card_erase_of_mem hmem, h]
    omega
  · exact h

/-- Marking a true non-mine preserves satisfaction. -/
theorem satisfies_mark_safe (M : Finset Cell) (t : Sentence) (c : Cell) (hc : c ∉ M)
    (h : Satisfies M t) : Satisfies M (t.mark_safe c) := by
  unfold Sentence.mark_safe
  split
  · rename_i hct
    have hnm : c ∉ t.cells ∩ M := fun hmem => hc (Finset.mem_inter.mp hmem).2
    unfold Satisfies at h ⊢
    simp only
    rw [Finset.erase_inter, Finset.erase_eq_of_not_mem hnm, h]
  · exact h

/-- The combined mine marking preserves consistency when the cell is a
true mine. -/
theorem consistent_aiSentenceMarkMine (M : Finset Cell) (s : AIState) (i : ℕ) (c : Cell)
    (hc : c ∈ M) (h : ConsistentState M s) :
    ConsistentState M (aiSentenceMarkMine s i c) := by
  obtain ⟨hsat, hmines, hsafes, hres⟩ := h
  refine ⟨?_, ?_, hsafes, noResolved_aiSentenceMarkMine s i c hres⟩
  · intro t' ht'
    unfold aiSentenceMarkMine at ht'
    rcases listModify_mem _ _ i t' ht' with hmem | ⟨y, hy, rfl⟩
    · unfold MinesweeperAI.mark_mine at hmem
      simp only [List.mem_map] at hmem
      obtain ⟨t, ht, rfl⟩ := hmem
      exact satisfies_mark_mine M t c hc (hsat t ht)
    · unfold MinesweeperAI.mark_mine at hy
      simp only [List.mem_map] at hy
      obtain ⟨t, ht, rfl⟩ := hy
      exact satisfies_mark_mine M _ c hc (satisfies_mark_mine M t c hc (hsat t ht))
  · exact Finset.insert_subset hc hmines

/-- The combined safe marking preserves consistency when the cell is a
true non-mine. -/
theorem consistent_aiSentenceMarkSafe (M : Finset Cell) (s : AIState) (i : ℕ) (c : Cell)
    (hc : c ∉ M) (h : ConsistentState M s) :
    ConsistentState M (aiSentenceMarkSafe s i c) := by
  obtain ⟨hsat, hmines, hsafes, hres⟩ := h
  refine ⟨?_, hmines, ?_, noResolved_aiSentenceMarkSafe s i c hres⟩
  · intro t' ht'
    unfold aiSentenceMarkSafe at ht'
    rcases listModify_mem _ _ i t' ht' with hmem | ⟨y, hy, rfl⟩
    · unfold MinesweeperAI.mark_safe at hmem
      simp only [List.mem_map] at hmem
      obtain ⟨t, ht, rfl⟩ := hmem
      exact satisfies_mark_safe M t c hc (hsat t ht)
    · unfold MinesweeperAI.mark_safe at hy
      simp only [List.mem_map] at hy
      obtain ⟨t, ht, rfl⟩ := hy
      exact satisfies_mark_safe M _ c hc (satisfies_mark_safe M t c hc (hsat t ht))
  · intro c' hc'
    rcases Finset.mem_insert.mp hc' with rfl | hc''
    · exact hc
    · exact hsafes c' hc''

/-- Knowledge coverage of the combined mine marking. -/
theorem covered_aiSentenceMarkMine (s : AIState) (i : ℕ) (c : Cell) :
    ∀ t' ∈ (aiSentenceMarkMine s i c).knowledge,
      ∃ t ∈ s.knowledge, t'.cells ⊆ t.cells := by
  intro t' ht'
  unfold aiSentenceMarkMine at ht'
  rcases listModify_mem _ _ i t' ht' with hmem | ⟨y, hy, rfl⟩
  · unfold MinesweeperAI.mark_mine at hmem
    simp only [List.mem_map] at hmem
    obtain ⟨t, ht, rfl⟩ := hmem
    exact ⟨t, ht, mark_mine_cells_subset t c⟩
  · unfold MinesweeperAI.mark_mine at hy
    simp only [List.mem_map] at hy
    obtain ⟨t, ht, rfl⟩ := hy
    exact ⟨t, ht, (mark_mine_cells_subset _ c).trans (mark_mine_cells_subset t c)⟩

/-- Knowledge coverage of the combined safe marking. -/
theorem covered_aiSentenceMarkSafe (s : AIState) (i : ℕ) (c : Cell) :
    ∀ t' ∈ (aiSentenceMarkSafe s i c).knowledge,
      ∃ t ∈ s.knowledge, t'.cells ⊆ t.cells := by
  intro t' ht'
  unfold aiSentenceMarkSafe at ht'
  rcases listModify_mem _ _ i t' ht' with hmem | ⟨y, hy, rfl⟩
  · unfold MinesweeperAI.mark_safe at hmem
    simp only [List.mem_map] at hmem
    obtain ⟨t, ht, rfl⟩ := hmem
    exact ⟨t, ht, mark_safe_cells_subset t c⟩
  · unfold MinesweeperAI.mark_safe at hy
    simp only [List.mem_map] at hy
    obtain ⟨t, ht, rfl⟩ := hy
    exact ⟨t, ht, (mark_safe_cells_subset _ c).trans (mark_safe_cells_subset t c)⟩

/-- The combined mine marking shrinks the measure data. -/
theorem shrinks_aiSentenceMarkMine (s : AIState) (i : ℕ) (c : Cell) :
    Shrinks s (aiSentenceMarkMine s i c) := by
  refine ⟨kbCells_mono _ _ (covered_aiSentenceMarkMine s i c), ?_⟩
  intro x hx
  rcases Finset.mem_union.mp hx with hx' | hx'
  · exact Finset.mem_union_left _ hx'
  · exact Finset.mem_union_right _ (Finset.mem_insert_of_mem hx')

/-- The combined safe marking shrinks the measure data. -/
theorem shrinks_aiSentenceMarkSafe (s : AIState) (i : ℕ) (c : Cell) :
    Shrinks s (aiSentenceMarkSafe s i c) := by
  refine ⟨kbCells_mono _ _ (covered_aiSentenceMarkSafe s i c), ?_⟩
  intro x hx
  rcases Finset.mem_union.mp hx with hx' | hx'
  · exact Finset.mem_union_left _ (Finset.mem_insert_of_mem hx')
  · exact Finset.mem_union_right _ hx'

/-- The marked cell is resolved after the combined mine marking. -/
theorem resolved_aiSentenceMarkMine (s : AIState) (i : ℕ) (c : Cell) :
    c ∈ resolvedSet (aiSentenceMarkMine s i c) :=
  Finset.mem_union_right _ (Finset.mem_insert_self _ _)

/-- The marked cell is resolved after the combined safe marking. -/
theorem resolved_aiSentenceMarkSafe (s : AIState) (i : ℕ) (c : Cell) :
    c ∈ resolvedSet (aiSentenceMarkSafe s i c) :=
  Finset.mem_union_left _ (Finset.mem_insert_self _ _)

/-- A satisfied sentence concluding safes names only true non-mines. -/
theorem known_safes_sound (M : Finset Cell) (t : Sentence) (ks : Finset Cell)
    (h : Satisfies M t) (hks : t.known_safes = some ks) :
    ks = t.cells ∧ t.cells ≠ ∅ ∧ ∀ c ∈ ks, c ∉ M := by
  unfold Sentence.known_safes at hks
  split at hks
  · rename_i hcond
    obtain rfl := Option.some.inj hks
    refine ⟨rfl, hcond.2, ?_⟩
    unfold Satisfies at h
    rw [hcond.1] at h
    have hemp : t.cells ∩ M = ∅ := Finset.card_eq_zero.mp (by omega)
    intro c hc hcM
    exact Finset.not_mem_empty c (hemp ▸ Finset.mem_inter.mpr ⟨hc, hcM⟩)
  · cases hks

/-- A satisfied sentence concluding mines names only true mines. -/
theorem known_mines_sound (M : Finset Cell) (t : Sentence) (km : Finset Cell)
    (h : Satisfies M t) (hkm : t.known_mines = some km) :
    km = t.cells ∧ t.cells ≠ ∅ ∧ ∀ c ∈ km, c ∈ M := by
  unfold Sentence.known_mines at hkm
  split at hkm
  · rename_i hcond
    obtain rfl := Option.some.inj hkm
    unfold Satisfies at h
    have hcards : (t.cells ∩ M).card = t.cells.card := by omega
    have heq : t.cells ∩ M = t.cells :=
      Finset.eq_of_subset_of_card_le Finset.inter_subset_left (le_of_eq hcards.symm)
    refine ⟨rfl, ?_, ?_⟩
    · intro hemp
      rw [hemp] at hcond
      simp at hcond
      omega
    · intro c hc
      have : c ∈ t.cells ∩ M := heq.symm ▸ hc
      exact (Finset.mem_inter.mp this).2
  · cases hkm

/-- Folding mine marks over true mines: consistency and shrinkage. -/
theorem fold_markMine (M : Finset Cell) (i : ℕ) (cs : List Cell)
    (hcs : ∀ c ∈ cs, c ∈ M) :
    ∀ s : AIState, ConsistentState M s →
      ConsistentState M (markCellsMineAt s i cs) ∧ Shrinks s (markCellsMineAt s i cs) := by
  induction cs with
  | nil => exact fun s h => ⟨h, shrinks_refl s⟩
  | cons c rest ih =>
    intro s h
    have hc := hcs c (List.mem_cons_self _ _)
    have h1 := consistent_aiSentenceMarkMine M s i c hc h
    obtain ⟨h2, h3⟩ := ih (fun d hd => hcs d (List.mem_cons_of_mem _ hd)) _ h1
    exact ⟨h2, shrinks_trans (shrinks_aiSentenceMarkMine s i c) h3⟩

/-- Folding safe marks over true non-mines: consistency and shrinkage. -/
theorem fold_markSafe (M : Finset Cell) (i : ℕ) (cs : List Cell)
    (hcs : ∀ c ∈ cs, c ∉ M) :
    ∀ s : AIState, ConsistentState M s →
      ConsistentState M (markCellsSafeAt s i cs) ∧ Shrinks s (markCellsSafeAt s i cs) := by
  induction cs with
  | nil => exact fun s h => ⟨h, shrinks_refl s⟩
  | cons c rest ih =>
    intro s h
    have hc := hcs c (List.mem_cons_self _ _)
    have h1 := consistent_aiSentenceMarkSafe M s i c hc h
    obtain ⟨h2, h3⟩ := ih (fun d hd => hcs d (List.mem_cons_of_mem _ hd)) _ h1
    exact ⟨h2, shrinks_trans (shrinks_aiSentenceMarkSafe s i c) h3⟩

/-- A firing mine conclusion: consistency, shrinkage, and a strict drop
of the first measure. -/
theorem markMine_fire (M : Finset Cell) (i : ℕ) (s : AIState) (km : Finset Cell)
    (h : ConsistentState M s) (hkmM : ∀ c ∈ km, c ∈ M)
    (hkb : ∀ c ∈ km, c ∈ kbCells s.knowledge)
    (hunres : ∀ c ∈ km, c ∉ resolvedSet s) (hne : km ≠ ∅) :
    ConsistentState M (markCellsMineAt s i (cellList km)) ∧
    Shrinks s (markCellsMineAt s i (cellList km)) ∧
    m1 (markCellsMineAt s i (cellList km)) < m1 s := by
  cases hcl : cellList km with
  | nil => exact absurd hcl (cellList_ne_nil km hne)
  | cons c rest =>
    have hcmem : c ∈ km := (mem_cellList km c).mp (hcl ▸ List.mem_cons_self _ _)
    have hrest : ∀ d ∈ rest, d ∈ M := fun d hd =>
      hkmM d ((mem_cellList km d).mp (hcl ▸ List.mem_cons_of_mem _ hd))
    have h1 := consistent_aiSentenceMarkMine M s i c (hkmM c hcmem) h
    obtain ⟨h2, h3⟩ := fold_markMine M i rest hrest _ h1
    have hsh1 := shrinks_aiSentenceMarkMine s i c
    have hm1 : m1 (aiSentenceMarkMine s i c) < m1 s :=
      m1_lt_of_shrinks hsh1 c (hkb c hcmem) (hunres c hcmem)
        (resolved_aiSentenceMarkMine s i c)
    exact ⟨h2, shrinks_trans hsh1 h3, lt_of_le_of_lt (m1_le_of_shrinks h3) hm1⟩

/-- A firing safe conclusion: consistency, shrinkage, and a strict drop
of the first measure. -/
theorem markSafe_fire (M : Finset Cell) (i : ℕ) (s : AIState) (ks : Finset Cell)
    (h : ConsistentState M s) (hksM : ∀ c ∈ ks, c ∉ M)
    (hkb : ∀ c ∈ ks, c ∈ kbCells s.knowledge)
    (hunres : ∀ c ∈ ks, c ∉ resolvedSet s) (hne : ks ≠ ∅) :
    ConsistentState M (markCellsSafeAt s i (cellList ks)) ∧
    Shrinks s (markCellsSafeAt s i (cellList ks)) ∧
    m1 (markCellsSafeAt s i (cellList ks)) < m1 s := by
  cases hcl : cellList ks with
  | nil => exact absurd hcl (cellList_ne_nil ks hne)
  | cons c rest =>
    have hcmem : c ∈ ks := (mem_cellList ks c).mp (hcl ▸ List.mem_cons_self _ _)
    have hrest : ∀ d ∈ rest, d ∉ M := fun d hd =>
      hksM d ((mem_cellList ks d).mp (hcl ▸ List.mem_cons_of_mem _ hd))
    have h1 := consistent_aiSentenceMarkSafe M s i c (hksM c hcmem) h
    obtain ⟨h2, h3⟩ := fold_markSafe M i rest hrest _ h1
    have hsh1 := shrinks_aiSentenceMarkSafe s i c
    have hm1 : m1 (aiSentenceMarkSafe s i c) < m1 s :=
      m1_lt_of_shrinks hsh1 c (hkb c hcmem) (hunres c hcmem)
        (resolved_aiSentenceMarkSafe s i c)
    exact ⟨h2, shrinks_trans hsh1 h3, lt_of_le_of_lt (m1_le_of_shrinks h3) hm1⟩

/-- The step-4 fold invariant: consistency, shrinkage from the entry
state, and a strict drop of the first measure whenever the flag is set. -/
def S4Inv (M : Finset Cell) (s0 : AIState) (acc : AIState × Bool) : Prop :=
  ConsistentState M acc.1 ∧ Shrinks s0 acc.1 ∧ (acc.2 = true → m1 acc.1 < m1 s0)

/-- One step-4 iteration preserves the fold invariant. -/
theorem s4inv_step4At (M : Finset Cell) (s0 : AIState) (acc : AIState × Bool) (i : ℕ)
    (h : S4Inv M s0 acc) : S4Inv M s0 (step4At acc i) := by
  obtain ⟨hCS, hSh, hstrict⟩ := h
  unfold step4At
  split
  · exact ⟨hCS, hSh, hstrict⟩
  · rename_i sent hget
    have hmain : ∀ acc1 : AIState × Bool, S4Inv M s0 acc1 →
        S4Inv M s0 (match acc1.1.knowledge.get? i with
          | none => acc1
          | some sent1 =>
            match sent1.known_mines with
            | some km => (markCellsMineAt acc1.1 i (cellList km), true)
            | none => acc1) := by
      intro acc1 h1
      obtain ⟨hCS1, hSh1, hstrict1⟩ := h1
      split
      · exact ⟨hCS1, hSh1, hstrict1⟩
      · rename_i sent1 hget1
        split
        · rename_i km hkm
          have hmem1 : sent1 ∈ acc1.1.knowledge := mem_of_getq _ _ _ hget1
          have hsat1 : Satisfies M sent1 := hCS1.1 sent1 hmem1
          obtain ⟨hkm_eq, hne1, hkmM⟩ := known_mines_sound M sent1 km hsat1 hkm
          have hkb : ∀ c ∈ km, c ∈ kbCells acc1.1.knowledge := fun c hc =>
            (mem_kbCells _ c).mpr ⟨sent1, hmem1, hkm_eq ▸ hc⟩
          have hunres : ∀ c ∈ km, c ∉ resolvedSet acc1.1 := by
            intro c hc hres
            have hr := hCS1.2.2.2 sent1 hmem1 c (hkm_eq ▸ hc)
            rcases Finset.mem_union.mp hres with h' | h'
            · exact hr.1 h'
            · exact hr.2 h'
          have hne' : km ≠ ∅ := by rw [hkm_eq]; exact hne1
          obtain ⟨hA, hB, hC⟩ := markMine_fire M i acc1.1 km hCS1 hkmM hkb hunres hne'
          exact ⟨hA, shrinks_trans hSh1 hB,
            fun _ => lt_of_lt_of_le hC (m1_le_of_shrinks hSh1)⟩
        · exact ⟨hCS1, hSh1, hstrict1⟩
    split
    · rename_i ks hks
      have hmem : sent ∈ acc.1.knowledge := mem_of_getq _ _ _ hget
      have hsat : Satisfies M sent := hCS.1 sent hmem
      obtain ⟨hks_eq, hneq, hksM⟩ := known_safes_sound M sent ks hsat hks
      have hkb : ∀ c ∈ ks, c ∈ kbCells acc.1.knowledge := fun c hc =>
        (mem_kbCells _ c).mpr ⟨sent, hmem, hks_eq ▸ hc⟩
      have hunres : ∀ c ∈ ks, c ∉ resolvedSet acc.1 := by
        intro c hc hres
        have hr := hCS.2.2.2 sent hmem c (hks_eq ▸ hc)
        rcases Finset.mem_union.mp hres with h' | h'
        · exact hr.1 h'
        · exact hr.2 h'
      have hne' : ks ≠ ∅ := by rw [hks_eq]; exact hneq
      obtain ⟨hA, hB, hC⟩ := markSafe_fire M i acc.1 ks hCS hksM hkb hunres hne'
      exact hmain _ ⟨hA, shrinks_trans hSh hB,
        fun _ => lt_of_lt_of_le hC (m1_le_of_shrinks hSh)⟩
    · exact hmain acc ⟨hCS, hSh, hstrict⟩

/-- Step 4 establishes the fold invariant from a consistent entry state. -/
theorem s4inv_step4 (M : Finset Cell) (s : AIState) (h : ConsistentState M s) :
    S4Inv M s (step4 s) := by
  unfold step4
  refine foldlPreserve (S4Inv M s) _ _ (fun a b _ ha => s4inv_step4At M s a b ha) _ ?_
  exact ⟨h, shrinks_refl s, fun hf => Bool.noConfusion hf⟩

/-- One step-4 iteration either leaves the accumulator unchanged or sets
the flag. -/
theorem step4At_cases (acc : AIState × Bool) (i : ℕ) :
    step4At acc i = acc ∨ (step4At acc i).2 = true := by
  unfold step4At
  split
  · exact Or.inl rfl
  · have hmain : ∀ acc1 : AIState × Bool, (acc1 = acc ∨ acc1.2 = true) →
        ((match acc1.1.knowledge.get? i with
          | none => acc1
          | some sent1 =>
            match sent1.known_mines with
            | some km => (markCellsMineAt acc1.1 i (cellList km), true)
            | none => acc1) = acc ∨
         (match acc1.1.knowledge.get? i with
          | none => acc1
          | some sent1 =>
            match sent1.known_mines with
            | some km => (markCellsMineAt acc1.1 i (cellList km), true)
            | none => acc1).2 = true) := by
      intro acc1 h1
      split
      · exact h1
      · split
        · exact Or.inr rfl
        · exact h1
    split
    · exact hmain _ (Or.inr rfl)
    · exact hmain _ (Or.inl rfl)

/-- When step 4 reports no change, it did not change the state. -/
theorem step4_id_of_false (s : AIState) (h : (step4 s).2 = false) : (step4 s).1 = s := by
  have hstep : ∀ (a : AIState × Bool) (b : ℕ), b ∈ List.range s.knowledge.length →
      (a = (s, false) ∨ a.2 = true) →
      (step4At a b = (s, false) ∨ (step4At a b).2 = true) := by
    intro a b _ ha
    rcases step4At_cases a b with he | he
    · rw [he]; exact ha
    · exact Or.inr he
  have key := foldlPreserve (fun acc : AIState × Bool => acc = (s, false) ∨ acc.2 = true)
    (List.range s.knowledge.length) step4At hstep (s, false) (Or.inl rfl)
  rcases key with hk | hk
  · rw [show step4 s = (List.range s.knowledge.length).foldl step4At (s, false) from rfl, hk]
  · rw [show step4 s = (List.range s.knowledge.length).foldl step4At (s, false) from rfl] at h
    rw [hk] at h
    cases h

/-- The removal phase: either the identity, or removal of the first
sentence with empty cell set. -/
theorem removalPhase_cases (l : List Sentence) :
    removalPhase l = l ∨ ∃ r ∈ l, r.cells = ∅ ∧ removalPhase l = removeFirst r l := by
  unfold removalPhase
  cases hf : l.find? (fun t => decide (t.cells = ∅)) with
  | none => exact Or.inl rfl
  | some r =>
    right
    refine ⟨r, List.mem_of_find?_eq_some hf, ?_, rfl⟩
    have hp := List.find?_some hf
    simpa using hp

/-- Elements different from the removed one survive `removeFirst`. -/
theorem mem_removeFirst_of_ne (t x : Sentence) (l : List Sentence) (hx : x ∈ l)
    (hne : x ≠ t) : x ∈ removeFirst t l := by
  induction l with
  | nil => cases hx
  | cons a as ih =>
    unfold removeFirst
    split
    · rename_i ha
      rcases List.mem_cons.mp hx with rfl | hx'
      · exact absurd ha hne
      · exact hx'
    · rcases List.mem_cons.mp hx with rfl | hx'
      · exact List.mem_cons_self _ _
      · exact List.mem_cons_of_mem _ (ih hx')

/-- An element lost by the removal phase has an empty cell set. -/
theorem removalPhase_missing (l : List Sentence) (x : Sentence) (hx : x ∈ l)
    (hnx : x ∉ removalPhase l) : x.cells = ∅ := by
  rcases removalPhase_cases l with he | ⟨r, _, hrc, he⟩
  · rw [he] at hnx
    exact absurd hx hnx
  · by_cases hxr : x = r
    · rw [hxr]
      exact hrc
    · rw [he] at hnx
      exact absurd (mem_removeFirst_of_ne r x l hx hxr) hnx

/-- `kbCells` of a cons. -/
theorem kbCells_cons (t : Sentence) (l : List Sentence) :
    kbCells (t :: l) = t.cells ∪ kbCells l := rfl

/-- `kbCells` of an append. -/
theorem kbCells_append (l1 l2 : List Sentence) :
    kbCells (l1 ++ l2) = kbCells l1 ∪ kbCells l2 := by
  induction l1 with
  | nil =>
    show kbCells l2 = kbCells [] ∪ kbCells l2
    rw [show kbCells ([] : List Sentence) = ∅ from rfl, Finset.empty_union]
  | cons a as ih =>
    rw [List.cons_append, kbCells_cons, kbCells_cons, ih, Finset.union_assoc]

/-- Removing an empty-celled sentence keeps the mentioned cells. -/
theorem kbCells_removeFirst_empty (r : Sentence) (l : List Sentence) (hr : r.cells = ∅) :
    kbCells (removeFirst r l) = kbCells l := by
  induction l with
  | nil => rfl
  | cons a as ih =>
    unfold removeFirst
    split
    · rename_i ha
      rw [kbCells_cons, ha, hr, Finset.empty_union]
    · rw [kbCells_cons, kbCells_cons, ih]

/-- The removal phase keeps the mentioned cells. -/
theorem kbCells_removalPhase (l : List Sentence) :
    kbCells (removalPhase l) = kbCells l := by
  rcases removalPhase_cases l with he | ⟨r, -, hrc, he⟩
  · rw [he]
  · rw [he, kbCells_removeFirst_empty r l hrc]

/-- Subset resolution preserves satisfaction. -/
theorem satisfies_derive (M : Finset Cell) (t1 t2 : Sentence) (h1 : Satisfies M t1)
    (h2 : Satisfies M t2) (hsub : t1.cells ⊆ t2.cells) :
    Satisfies M (deriveSentence t1 t2) := by
  have hset : (t2.cells \ t1.cells) ∩ M = (t2.cells ∩ M) \ (t1.cells ∩ M) := by
    ext x
    simp only [Finset.mem_inter, Finset.mem_sdiff]
    tauto
  have hsub2 : t1.cells ∩ M ⊆ t2.cells ∩ M := fun x hx =>
    Finset.mem_inter.mpr ⟨hsub (Finset.mem_inter.mp hx).1, (Finset.mem_inter.mp hx).2⟩
  have hle : (t1.cells ∩ M).card ≤ (t2.cells ∩ M).card := Finset.card_le_card hsub2
  unfold Satisfies
  have hcells : (deriveSentence t1 t2).cells = t2.cells \ t1.cells := rfl
  have hcount : (deriveSentence t1 t2).count = t2.count - t1.count := rfl
  rw [hcells, hcount, hset, Finset.card_sdiff hsub2, h1, h2]
  omega

/-- Replacing the knowledge base with covered, satisfied sentences
preserves consistency. -/
theorem consistent_replace (M : Finset Cell) (s : AIState) (l' : List Sentence)
    (h : ConsistentState M s) (hsat : ∀ t ∈ l', Satisfies M t)
    (hcov : ∀ t' ∈ l', ∃ t ∈ s.knowledge, t'.cells ⊆ t.cells) :
    ConsistentState M { s with knowledge := l' } :=
  ⟨hsat, h.2.1, h.2.2.1, noResolved_of_covered s l' hcov h.2.2.2⟩

/-- A full propagation pass from a consistent state: the result is
consistent, and a raised changed flag forces a strict decrease of the
lexicographic measure (m1, m2). -/
theorem consistent_pass (M : Finset Cell) (s : AIState) (h : ConsistentState M s) :
    ConsistentState M (updatePass s).1 ∧
    ((updatePass s).2 = true →
      (m1 (updatePass s).1 < m1 s ∨
       (m1 (updatePass s).1 = m1 s ∧ m2 (updatePass s).1 < m2 s))) := by
  obtain ⟨hCS4, hSh4, hstr4⟩ := s4inv_step4 M s h
  obtain ⟨ext, hext, hnd, hprop, hflag⟩ :=
    step5_spec (removalPhase (step4 s).1.knowledge) (step4 s).2
  have hknow : (updatePass s).1.knowledge =
      (step5 (removalPhase (step4 s).1.knowledge) (step4 s).2).1 := rfl
  have hsafes : (updatePass s).1.safes = (step4 s).1.safes := rfl
  have hmines : (updatePass s).1.mines = (step4 s).1.mines := rfl
  have hsnd : (updatePass s).2 =
      (step5 (removalPhase (step4 s).1.knowledge) (step4 s).2).2 := rfl
  have hsat_lr : ∀ t ∈ removalPhase (step4 s).1.knowledge, Satisfies M t :=
    fun t ht => hCS4.1 t (removalPhase_mem _ _ ht)
  have hsat_fin : ∀ t ∈ (step5 (removalPhase (step4 s).1.knowledge) (step4 s).2).1,
      Satisfies M t := by
    intro t ht
    rw [hext] at ht
    rcases List.mem_append.mp ht with hm | hm
    · exact hsat_lr t hm
    · obtain ⟨-, t1, ht1, t2, ht2, -, hsub, rfl⟩ := hprop t hm
      exact satisfies_derive M t1 t2 (hsat_lr t1 ht1) (hsat_lr t2 ht2) hsub.subset
  have hcov_fin : ∀ t' ∈ (step5 (removalPhase (step4 s).1.knowledge) (step4 s).2).1,
      ∃ t ∈ (step4 s).1.knowledge, t'.cells ⊆ t.cells := by
    intro t ht
    rw [hext] at ht
    rcases List.mem_append.mp ht with hm | hm
    · exact ⟨t, removalPhase_mem _ _ hm, Finset.Subset.refl _⟩
    · obtain ⟨-, t1, ht1, t2, ht2, -, hsub, rfl⟩ := hprop t hm
      exact ⟨t2, removalPhase_mem _ _ ht2, Finset.sdiff_subset⟩
  have hCSf : ConsistentState M (updatePass s).1 :=
    consistent_replace M (step4 s).1 _ hCS4 hsat_fin hcov_fin
  refine ⟨hCSf, ?_⟩
  have hkb_lr : kbCells (removalPhase (step4 s).1.knowledge) = kbCells (step4 s).1.knowledge :=
    kbCells_removalPhase _
  have hkb_ext : kbCells ext ⊆ kbCells (removalPhase (step4 s).1.knowledge) := by
    refine kbCells_mono _ _ ?_
    intro t ht
    obtain ⟨-, t1, ht1, t2, ht2, -, hsub, rfl⟩ := hprop t ht
    exact ⟨t2, ht2, Finset.sdiff_subset⟩
  have hkb_fin : kbCells (step5 (removalPhase (step4 s).1.knowledge) (step4 s).2).1 =
      kbCells (step4 s).1.knowledge := by
    rw [hext, kbCells_append, ← hkb_lr]
    exact Finset.union_eq_left.mpr hkb_ext
  have hm1f : m1 (updatePass s).1 = m1 (step4 s).1 := by
    unfold m1 resolvedSet
    rw [hknow, hsafes, hmines, hkb_fin]
  intro hfl
  rw [hsnd, hflag] at hfl
  by_cases h42 : (step4 s).2 = true
  · left
    rw [hm1f]
    exact hstr4 h42
  · rw [Bool.not_eq_true] at h42
    have hid : (step4 s).1 = s := step4_id_of_false s h42
    right
    refine ⟨by rw [hm1f, hid], ?_⟩
    rw [h42, Bool.false_or] at hfl
    cases hex : ext with
    | nil =>
      rw [hex] at hfl
      simp at hfl
    | cons e rest =>
      have hemem : e ∈ ext := hex ▸ List.mem_cons_self _ _
      obtain ⟨henl, t1, ht1, t2, ht2, hne12, hsub, hede⟩ := hprop e hemem
      have hdcells : (deriveSentence t1 t2).cells = t2.cells \ t1.cells := rfl
      have hesat : Satisfies M e := by
        rw [hede]
        exact satisfies_derive M t1 t2 (hsat_lr t1 ht1) (hsat_lr t2 ht2) hsub.subset
      have hecells_ne : e.cells ≠ ∅ := by
        rw [hede, hdcells]
        obtain ⟨y, hy2, hy1⟩ := Finset.exists_of_ssubset hsub
        exact fun hemp => Finset.not_mem_empty y
          (hemp ▸ Finset.mem_sdiff.mpr ⟨hy2, hy1⟩)
      have hecells_sub : e.cells ⊆ kbCells s.knowledge := by
        rw [hede, hdcells]
        intro x hx
        have hx2 : x ∈ t2.cells := (Finset.mem_sdiff.mp hx).1
        have : x ∈ kbCells (removalPhase (step4 s).1.knowledge) :=
          (mem_kbCells _ _).mpr ⟨t2, ht2, hx2⟩
        rw [hkb_lr, hid] at this
        exact this
      have heP : e ∈ possibleSentences (kbCells s.knowledge) := by
        rw [mem_possibleSentences]
        refine ⟨hecells_sub, hecells_ne, ?_, ?_⟩
        · rw [hesat]
          exact Int.natCast_nonneg _
        · rw [hesat]
          exact_mod_cast Finset.card_le_card Finset.inter_subset_left
      have hens : e ∉ s.knowledge := by
        intro hmem
        by_cases helr : e ∈ removalPhase (step4 s).1.knowledge
        · exact henl helr
        · exact hecells_ne
            (removalPhase_missing _ e (by rw [hid]; exact hmem) helr)
      have hefin : e ∈ (step5 (removalPhase (step4 s).1.knowledge) (step4 s).2).1 := by
        rw [hext, hex]
        exact List.mem_append_right _ (List.mem_cons_self _ _)
      have hm2f : m2 (updatePass s).1 =
          ((possibleSentences (kbCells s.knowledge)) \
            ((step5 (removalPhase (step4 s).1.knowledge) (step4 s).2).1).toFinset).card := by
        unfold m2
        rw [hknow, hkb_fin, hid]
      have hAB : (possibleSentences (kbCells s.knowledge)) \
          ((step5 (removalPhase (step4 s).1.knowledge) (step4 s).2).1).toFinset ⊆
          ((possibleSentences (kbCells s.knowledge)) \ s.knowledge.toFinset).erase e := by
        intro x hx
        rw [Finset.mem_sdiff] at hx
        rw [Finset.mem_erase, Finset.mem_sdiff]
        refine ⟨?_, hx.1, ?_⟩
        · intro hxe
          exact hx.2 (hxe ▸ List.mem_toFinset.mpr hefin)
        · intro hxs
          have hxs' := List.mem_toFinset.mp hxs
          by_cases hxlr : x ∈ removalPhase (step4 s).1.knowledge
          · refine hx.2 (List.mem_toFinset.mpr ?_)
            rw [hext]
            exact List.mem_append_left _ hxlr
          · have hxe : x.cells = ∅ :=
              removalPhase_missing _ x (by rw [hid]; exact hxs') hxlr
            exact ((mem_possibleSentences _ x).mp hx.1).2.1 hxe
      have heB : e ∈ (possibleSentences (kbCells s.knowledge)) \ s.knowledge.toFinset :=
        Finset.mem_sdiff.mpr ⟨heP, fun hmem => hens (List.mem_toFinset.mp hmem)⟩
      rw [hm2f]
      calc ((possibleSentences (kbCells s.knowledge)) \
          ((step5 (removalPhase (step4 s).1.knowledge) (step4 s).2).1).toFinset).card
          ≤ (((possibleSentences (kbCells s.knowledge)) \ s.knowledge.toFinset).erase e).card :=
            Finset.card_le_card hAB
      _ < ((possibleSentences (kbCells s.knowledge)) \ s.knowledge.toFinset).card :=
            Finset.card_erase_lt_of_mem heB
      _ = m2 s := rfl

instance (M : Finset Cell) (t : Sentence) : Decidable (Satisfies M t) := by
  unfold Satisfies; infer_instance

instance (s : AIState) : Decidable (noResolved s) := by
  unfold noResolved; infer_instance

instance (M : Finset Cell) (s : AIState) : Decidable (ConsistentState M s) := by
  unfold ConsistentState; infer_instance

/-- Termination of the propagation from any consistent state, by
lexicographic descent on (m1, m2). -/
theorem updateKnowledge_terminates_of_consistent (M : Finset Cell) :
    ∀ (a b : ℕ) (s : AIState), ConsistentState M s → m1 s = a → m2 s = b →
      ∃ (n : ℕ) (s' : AIState), updateKnowledge n s = some s' := by
  intro a
  induction a using Nat.strong_induction_on with
  | _ a iha =>
    intro b
    induction b using Nat.strong_induction_on with
    | _ b ihb =>
      intro s hCS h1 h2
      by_cases hfl : (updatePass s).2 = true
      · obtain ⟨hCS', hdec⟩ := consistent_pass M s hCS
        rcases hdec hfl with hlt | ⟨heq, hlt2⟩
        · obtain ⟨n, s', hn⟩ :=
            iha (m1 (updatePass s).1) (h1 ▸ hlt) (m2 (updatePass s).1) (updatePass s).1
              hCS' rfl rfl
          refine ⟨n + 1, s', ?_⟩
          unfold updateKnowledge
          rw [if_pos hfl]
          exact hn
        · obtain ⟨n, s', hn⟩ :=
            ihb (m2 (updatePass s).1) (h2 ▸ hlt2) (updatePass s).1 hCS'
              (heq.trans h1) rfl
          refine ⟨n + 1, s', ?_⟩
          unfold updateKnowledge
          rw [if_pos hfl]
          exact hn
      · refine ⟨1, (updatePass s).1, ?_⟩
        unfold updateKnowledge
        rw [if_neg hfl]

/-- Claim C4, amended: the fixed-point propagation terminates from every
agent state whose knowledge base is consistent — satisfied by some mine
assignment that contains all recorded mines and avoids all recorded
safes — and whose sentences mention no resolved cell.  (The original
claim, termination from every agent state over a finite board, is
refuted by the divergent state of the counterexample.) -/
theorem c4_amended_terminates (s : AIState) (h : ConsistentAI s) :
    ∃ (n : ℕ) (s' : AIState), updateKnowledge n s = some s' := by
  obtain ⟨M, hM⟩ := h
  exact updateKnowledge_terminates_of_consistent M (m1 s) (m2 s) s hM rfl rfl

/-- A small consistent state for the C4 witness. -/
def c4WitState : AIState := { initAI 2 2 with knowledge := [⟨{(0, 0), (0, 1)}, 1⟩] }

/-- Witness for the amended C4 at a concrete consistent state. -/
theorem c4_amended_terminates_witness :
    ∃ (n : ℕ) (s' : AIState), updateKnowledge n c4WitState = some s' :=
  c4_amended_terminates c4WitState ⟨{(0, 0)}, by decide⟩
